import Mathlib

/-!
Verification of the content-chunking and extraction-merging pipeline of
`scrapemaster_colab.py` (WebScrapeMaster-AI), via a shallow embedding in Lean.

Modelling conventions, used throughout:
* Python strings are Lean `String`s; most functions work on the underlying
  `List Char`.  Python's `str.strip()` / `str.split()` semantics are modelled
  for the ASCII whitespace set (space, tab, `\n`, `\r`, `\x0b`, `\x0c`);
  the source only ever feeds ASCII whitespace through these paths.
* Python `float` arithmetic in `chunk_content` (`len(words) * 1.3`) is
  modelled exactly: every quantity is a whole number of decimal tenths, so
  the loop carries `10 ×` each size in integers.  The spec defines the size
  estimate by the `* 1.3` formula; no claim here depends on binary
  floating-point rounding.
* `json.loads` / `json.dumps` are modelled by an executable JSON codec over
  an inductive value type `JValue`.  JSON number literals are modelled as
  integers (no fraction/exponent part, no NaN/Infinity): no claim concerns
  non-integer numbers.  Duplicate object keys follow Python's behaviour
  (last value wins, first position kept).  Lone surrogate `\uXXXX` escapes
  are rejected (Lean `Char` has no surrogates); `json.dumps` is modelled
  with its default `ensure_ascii=True` escaping, including surrogate pairs.
* I/O (HTTP, Playwright, the filesystem) is modelled by oracle functions
  passed as parameters; Python exceptions by `Except PyExc`.
-/

namespace SM

/-- Python exception kinds that the modelled code can raise. -/
inductive PyExc where
  | attributeError
  | jsonDecodeError
  | typeError
  | valueError
deriving DecidableEq

/-- The two characters `{` and `}`, by code point. -/
def lbrace : Char := Char.ofNat 123

def rbrace : Char := Char.ofNat 125

/-- Python's `str` whitespace set, restricted to ASCII (see header). -/
def isPyWs (c : Char) : Bool :=
  c = ' ' || c = '\t' || c = '\n' || c = '\r' || c = '\x0b' || c = '\x0c'

/-- Python `s.strip()`: drop leading and trailing whitespace. -/
def pyStrip (cs : List Char) : List Char :=
  ((cs.dropWhile isPyWs).reverse.dropWhile isPyWs).reverse

/-- One step of the word counter: track whether we are inside a word and how
many words have started.  `len(s.split())` is the number of maximal
non-whitespace runs, which is what this state machine counts. -/
def wcStep (s : Bool × Nat) (c : Char) : Bool × Nat :=
  if isPyWs c then (false, s.2)
  else if s.1 then s
  else (true, s.2 + 1)

/-- Python `len(s.split())`: the number of maximal non-whitespace runs. -/
def wordCount (cs : List Char) : Nat :=
  (cs.foldl wcStep (false, 0)).2

/-- Python `needle in hay` on strings (substring containment). -/
def containsSub : List Char → List Char → Bool
  | [], needle => needle.isEmpty
  | c :: t, needle => needle.isPrefixOf (c :: t) || containsSub t needle

/-- Worker for `splitOnSub`; the separator is `s0 :: srest` (nonempty) and
the first argument is recursion fuel (any bound on the scan length; each
step consumes at least one input character). -/
def splitOnSubAux (s0 : Char) (srest : List Char) : Nat → List Char → List Char → List (List Char)
  | 0, cs, cur => [cur.reverse ++ cs]
  | _ + 1, [], cur => [cur.reverse]
  | fuel + 1, c :: t, cur =>
    if (s0 :: srest).isPrefixOf (c :: t) then
      cur.reverse :: splitOnSubAux s0 srest fuel (t.drop srest.length) []
    else
      splitOnSubAux s0 srest fuel t (c :: cur)

/-- Python `hay.split(sep)` for a nonempty separator (the source only splits
on the literal code fences).  An empty separator is a `ValueError` in Python
and never occurs in the source; it is mapped to the identity split here. -/
def splitOnSub (cs sep : List Char) : List (List Char) :=
  match sep with
  | [] => [cs]
  | s0 :: srest => splitOnSubAux s0 srest (cs.length + 1) cs []

/-- Python `s.find(c)` for a single character: first index, or `-1`. -/
def pyFind (c : Char) : List Char → Int
  | [] => -1
  | x :: t =>
    if x = c then 0
    else
      let r := pyFind c t
      if r = -1 then -1 else r + 1

/-- Python `s.rfind(c)` for a single character: last index, or `-1`. -/
def pyRfind (c : Char) (cs : List Char) : Int :=
  let r := pyFind c cs.reverse
  if r = -1 then -1 else (cs.length : Int) - 1 - r

/-- Python slice `s[a:b]` for `0 ≤ a ≤ b` (the only case the source hits). -/
def pySlice (cs : List Char) (a b : Nat) : List Char :=
  (cs.drop a).take (b - a)

/-- Python `s.split(sep)` for a single-character separator.  Structured for
proofs: never returns `[]`, and splitting `""` yields `[[]]`. -/
def splitChar (sep : Char) : List Char → List (List Char)
  | [] => [[]]
  | c :: t =>
    if c = sep then [] :: splitChar sep t
    else
      match splitChar sep t with
      | [] => [[c]]
      | u :: us => (c :: u) :: us

/-! ## JSON values, modelling Python's decoded `json` objects -/

/-- A decoded JSON value (see the modelling conventions in the header). -/
inductive JValue where
  | null
  | bool (b : Bool)
  | int (n : Int)
  | str (s : String)
  | arr (elems : List JValue)
  | obj (fields : List (String × JValue))

mutual

/-- Structural equality test on JSON values. -/
def jeqV : JValue → JValue → Bool
  | .null, .null => true
  | .bool a, .bool b => a = b
  | .int a, .int b => a = b
  | .str a, .str b => a = b
  | .arr a, .arr b => jeqL a b
  | .obj a, .obj b => jeqF a b
  | _, _ => false

/-- Structural equality test on JSON value lists. -/
def jeqL : List JValue → List JValue → Bool
  | [], [] => true
  | a :: as, b :: bs => jeqV a b && jeqL as bs
  | _, _ => false

/-- Structural equality test on object field lists. -/
def jeqF : List (String × JValue) → List (String × JValue) → Bool
  | [], [] => true
  | (k, v) :: as, (l, w) :: bs => k = l && jeqV v w && jeqF as bs
  | _, _ => false

end

mutual

theorem jeqV_iff : ∀ a b : JValue, jeqV a b = true ↔ a = b
  | .null, b => by cases b <;> simp [jeqV]
  | .bool x, b => by cases b <;> simp [jeqV]
  | .int x, b => by cases b <;> simp [jeqV]
  | .str x, b => by cases b <;> simp [jeqV]
  | .arr xs, b => by cases b <;> simp [jeqV, jeqL_iff xs]
  | .obj fs, b => by cases b <;> simp [jeqV, jeqF_iff fs]

theorem jeqL_iff : ∀ a b : List JValue, jeqL a b = true ↔ a = b
  | [], b => by cases b <;> simp [jeqL]
  | x :: xs, b => by
      cases b <;> simp [jeqL, jeqV_iff x, jeqL_iff xs]

theorem jeqF_iff : ∀ a b : List (String × JValue), jeqF a b = true ↔ a = b
  | [], b => by cases b <;> simp [jeqF]
  | (k, v) :: xs, b => by
      cases b with
      | nil => simp [jeqF]
      | cons y ys =>
        obtain ⟨l, w⟩ := y
        simp [jeqF, jeqV_iff v, jeqF_iff xs, and_assoc]

end

instance : DecidableEq JValue := fun a b => decidable_of_iff _ (jeqV_iff a b)

instance {e a : Type} [DecidableEq e] [DecidableEq a] : DecidableEq (Except e a) := fun x y =>
  match x, y with
  | .error u, .error v => decidable_of_iff (u = v) (by simp)
  | .error _, .ok _ => isFalse fun h => Except.noConfusion h
  | .ok _, .error _ => isFalse fun h => Except.noConfusion h
  | .ok u, .ok v => decidable_of_iff (u = v) (by simp)

/-- The canonical empty extraction result `{"listings": []}`. -/
def emptyListings : JValue := .obj [("listings", .arr [])]

/-- Association-list lookup on object fields (Python `d[k]` / `k in d`). -/
def jGet : List (String × JValue) → String → Option JValue
  | [], _ => none
  | (k', v) :: fs, k => if k' = k then some v else jGet fs k

/-- Python `d[k] = v` on an insertion-ordered dict: replace the value at the
first occurrence of `k`, or append a new binding. -/
def objInsert : List (String × JValue) → String → JValue → List (String × JValue)
  | [], k, v => [(k, v)]
  | (k', v') :: fs, k, v =>
    if k' = k then (k', v) :: fs else (k', v') :: objInsert fs k v

/-- Build a dict from a key/value pair sequence, later pairs winning, as
Python's `dict(pairs)` (and hence `json.loads` on duplicate keys) does. -/
def objFromPairs (ps : List (String × JValue)) : List (String × JValue) :=
  ps.foldl (fun acc p => objInsert acc p.1 p.2) []

/-! ## `json.dumps` (default options: `ensure_ascii=True`, separators `", "`, `": "`) -/

/-- Lowercase hex digit character for `n < 16` (as CPython's `\uXXXX` output). -/
def hexChar (n : Nat) : Char :=
  if n < 10 then Char.ofNat (48 + n) else Char.ofNat (87 + n)

/-- The four hex digits of `n < 0x10000`, most significant first. -/
def hex4 (n : Nat) : List Char :=
  [hexChar (n / 4096 % 16), hexChar (n / 256 % 16), hexChar (n / 16 % 16), hexChar (n % 16)]

/-- CPython's `ensure_ascii` escape of one character: short escapes for the
usual controls, printable ASCII other than `"` and `\` kept verbatim, and
everything else as `\uXXXX` (a surrogate pair beyond the BMP). -/
def escChar (c : Char) : List Char :=
  if c = '"' then ['\\', '"']
  else if c = '\\' then ['\\', '\\']
  else if c = '\n' then ['\\', 'n']
  else if c = '\t' then ['\\', 't']
  else if c = '\r' then ['\\', 'r']
  else if c = '\x08' then ['\\', 'b']
  else if c = '\x0c' then ['\\', 'f']
  else if 0x20 ≤ c.toNat ∧ c.toNat ≤ 0x7e then [c]
  else if c.toNat < 0x10000 then '\\' :: 'u' :: hex4 c.toNat
  else
    ('\\' :: 'u' :: hex4 (0xd800 + (c.toNat - 0x10000) / 0x400)) ++
      ('\\' :: 'u' :: hex4 (0xdc00 + (c.toNat - 0x10000) % 0x400))

/-- A JSON string literal for `s`: quote, escaped characters, quote. -/
def escString (s : String) : List Char :=
  '"' :: ((s.data.map escChar).flatten ++ ['"'])

/-- Worker for `natChars`, structural on a fuel bound (any `fuel > n` is
enough, since the digit count of `n` is at most `n + 1`). -/
def natCharsF : Nat → Nat → List Char → List Char
  | 0, _, acc => acc
  | fuel + 1, n, acc =>
    if n < 10 then Char.ofNat (48 + n) :: acc
    else natCharsF fuel (n / 10) (Char.ofNat (48 + n % 10) :: acc)

/-- Decimal digit characters of `n`, most significant first, onto `acc`. -/
def natChars (n : Nat) (acc : List Char) : List Char :=
  natCharsF (n + 1) n acc

/-- The decimal representation of an integer, as `repr`/`json.dumps` print it. -/
def intChars (i : Int) : List Char :=
  if i < 0 then '-' :: natChars i.natAbs [] else natChars i.natAbs []

mutual

/-- `json.dumps` of a value, as a character list. -/
def dumpV : JValue → List Char
  | .null => ['n', 'u', 'l', 'l']
  | .bool b => if b then ['t', 'r', 'u', 'e'] else ['f', 'a', 'l', 's', 'e']
  | .int n => intChars n
  | .str s => escString s
  | .arr es => '[' :: (dumpL es ++ [']'])
  | .obj fs => lbrace :: (dumpF fs ++ [rbrace])

/-- Array elements, separated by `", "`. -/
def dumpL : List JValue → List Char
  | [] => []
  | v :: vs => dumpV v ++ dumpLTail vs

/-- Continuation of an array body: each further element after `", "`. -/
def dumpLTail : List JValue → List Char
  | [] => []
  | v :: vs => ',' :: ' ' :: (dumpV v ++ dumpLTail vs)

/-- Object members `"key": value`, separated by `", "`. -/
def dumpF : List (String × JValue) → List Char
  | [] => []
  | (k, v) :: fs => escString k ++ ':' :: ' ' :: (dumpV v ++ dumpFTail fs)

/-- Continuation of an object body: each further member after `", "`. -/
def dumpFTail : List (String × JValue) → List Char
  | [] => []
  | (k, v) :: fs => ',' :: ' ' :: (escString k ++ ':' :: ' ' :: (dumpV v ++ dumpFTail fs))

end

/-- Python `json.dumps(v)` with default options. -/
def dumps (v : JValue) : String := String.mk (dumpV v)

/-! ## `json.loads`: an executable JSON reader -/

/-- JSON's whitespace set (the only characters `json.loads` skips). -/
def isJWs (c : Char) : Bool :=
  c = ' ' || c = '\t' || c = '\n' || c = '\r'

/-- Drop leading JSON whitespace. -/
def skipJWs : List Char → List Char
  | [] => []
  | c :: t => if isJWs c then skipJWs t else c :: t

/-- The value of a hex digit character, if it is one. -/
def hexDigitVal (c : Char) : Option Nat :=
  if 48 ≤ c.toNat ∧ c.toNat ≤ 57 then some (c.toNat - 48)
  else if 97 ≤ c.toNat ∧ c.toNat ≤ 102 then some (c.toNat - 87)
  else if 65 ≤ c.toNat ∧ c.toNat ≤ 70 then some (c.toNat - 55)
  else none

/-- Decode a short escape character (`\n`, `\t`, …) to its value. -/
def shortEscape (e : Char) : Option Char :=
  if e = '"' then some '"'
  else if e = '\\' then some '\\'
  else if e = '/' then some '/'
  else if e = 'n' then some '\n'
  else if e = 't' then some '\t'
  else if e = 'r' then some '\r'
  else if e = 'b' then some '\x08'
  else if e = 'f' then some '\x0c'
  else none

/-- The value of four hex digit characters, if all four are hex digits. -/
def hexQuad (a b d e : Char) : Option Nat :=
  match hexDigitVal a, hexDigitVal b, hexDigitVal d, hexDigitVal e with
  | some va, some vb, some vd, some ve => some (((va * 16 + vb) * 16 + vd) * 16 + ve)
  | _, _, _, _ => none

mutual

/-- Read a JSON string body after the opening quote, returning the decoded
characters and the input after the closing quote.  Strict mode: raw control
characters are rejected; surrogate `\u` pairs are combined; a lone
surrogate escape is rejected (a modelling restriction, see the header). -/
def parseStringBody : List Char → Option (List Char × List Char)
  | [] => none
  | c :: t =>
    if c = '"' then some ([], t)
    else if c = '\\' then parseEscapeSeq t
    else if c.toNat < 0x20 then none
    else (parseStringBody t).map fun p => (c :: p.1, p.2)

/-- Decode what follows a backslash. -/
def parseEscapeSeq : List Char → Option (List Char × List Char)
  | [] => none
  | e :: t2 =>
    if e = 'u' then parseUniEscape t2
    else
      match shortEscape e with
      | some d => (parseStringBody t2).map fun p => (d :: p.1, p.2)
      | none => none

/-- Decode the four hex digits of a `\uXXXX` escape, and a following low
surrogate when the value is a high surrogate. -/
def parseUniEscape : List Char → Option (List Char × List Char)
  | a :: b :: d :: e :: t3 =>
    match hexQuad a b d e with
    | none => none
    | some n =>
      if n < 0xd800 ∨ 0xdfff < n then
        (parseStringBody t3).map fun p => (Char.ofNat n :: p.1, p.2)
      else if 0xdc00 ≤ n then none
      else parseLowSurrogate n t3
  | _ => none

/-- Decode the `\uXXXX` low half of a surrogate pair whose high half was
`n`, and combine the two into one character. -/
def parseLowSurrogate (n : Nat) : List Char → Option (List Char × List Char)
  | bs :: u :: a :: b :: d :: e :: t4 =>
    if bs = '\\' ∧ u = 'u' then
      match hexQuad a b d e with
      | none => none
      | some m =>
        if 0xdc00 ≤ m ∧ m ≤ 0xdfff then
          (parseStringBody t4).map fun p =>
            (Char.ofNat (0x10000 + (n - 0xd800) * 0x400 + (m - 0xdc00)) :: p.1, p.2)
        else none
    else none
  | _ => none

end

/-- Numeric value of a digit string (no sign), most significant first. -/
def digitsToNat (ds : List Char) : Nat :=
  ds.foldl (fun a c => a * 10 + (c.toNat - 48)) 0

/-- Read an unsigned JSON integer literal: one or more digits, no leading
zero (except `0` itself). -/
def parseNatToken (cs : List Char) : Option (Nat × List Char) :=
  match cs.takeWhile Char.isDigit with
  | [] => none
  | d :: ds =>
    if d = '0' ∧ ds ≠ [] then none
    else some (digitsToNat (d :: ds), cs.dropWhile Char.isDigit)

/-- Read a JSON integer literal with optional minus sign. -/
def parseIntToken : List Char → Option (Int × List Char)
  | '-' :: t => (parseNatToken t).map fun p => (-(p.1 : Int), p.2)
  | cs => (parseNatToken cs).map fun p => ((p.1 : Int), p.2)

mutual

/-- Read one JSON value (after skipping whitespace); `fuel` bounds recursion
depth and is decremented on every nested read. -/
def parseValue : Nat → List Char → Option (JValue × List Char)
  | 0, _ => none
  | fuel + 1, cs =>
    match skipJWs cs with
    | [] => none
    | c :: t =>
      if c = '"' then (parseStringBody t).map fun p => (JValue.str (String.mk p.1), p.2)
      else if c = lbrace then parseObjBody fuel t
      else if c = '[' then parseArrBody fuel t
      else if c = 'n' then
        if "ull".data.isPrefixOf t then some (.null, t.drop 3) else none
      else if c = 't' then
        if "rue".data.isPrefixOf t then some (.bool true, t.drop 3) else none
      else if c = 'f' then
        if "alse".data.isPrefixOf t then some (.bool false, t.drop 4) else none
      else if c = '-' || c.isDigit then
        (parseIntToken (c :: t)).map fun p => (JValue.int p.1, p.2)
      else none

/-- Read an array body after the opening bracket. -/
def parseArrBody : Nat → List Char → Option (JValue × List Char)
  | 0, _ => none
  | fuel + 1, cs =>
    match skipJWs cs with
    | [] => none
    | c :: t =>
      if c = ']' then some (.arr [], t)
      else
        match parseValue fuel (c :: t) with
        | none => none
        | some (v, r) =>
          match parseElemsTail fuel r with
          | none => none
          | some (vs, r2) => some (.arr (v :: vs), r2)

/-- After one array element: a comma and another element, or the close. -/
def parseElemsTail : Nat → List Char → Option (List JValue × List Char)
  | 0, _ => none
  | fuel + 1, cs =>
    match skipJWs cs with
    | [] => none
    | c :: t =>
      if c = ']' then some ([], t)
      else if c = ',' then
        match parseValue fuel t with
        | none => none
        | some (v, r) =>
          match parseElemsTail fuel r with
          | none => none
          | some (vs, r2) => some (v :: vs, r2)
      else none

/-- Read an object body after the opening brace; members are accumulated as
raw pairs and deduplicated with `objFromPairs` (Python's dict semantics). -/
def parseObjBody : Nat → List Char → Option (JValue × List Char)
  | 0, _ => none
  | fuel + 1, cs =>
    match skipJWs cs with
    | [] => none
    | c :: t =>
      if c = rbrace then some (.obj [], t)
      else if c = '"' then
        match parseStringBody t with
        | none => none
        | some (k, r1) =>
          match skipJWs r1 with
          | [] => none
          | c2 :: t2 =>
            if c2 = ':' then
              match parseValue fuel t2 with
              | none => none
              | some (v, r2) =>
                match parseFieldsTail fuel r2 with
                | none => none
                | some (ps, r3) => some (.obj (objFromPairs ((String.mk k, v) :: ps)), r3)
            else none
      else none

/-- After one object member: a comma and another member, or the close. -/
def parseFieldsTail : Nat → List Char → Option (List (String × JValue) × List Char)
  | 0, _ => none
  | fuel + 1, cs =>
    match skipJWs cs with
    | [] => none
    | c :: t =>
      if c = rbrace then some ([], t)
      else if c = ',' then
        match skipJWs t with
        | [] => none
        | c2 :: t2 =>
          if c2 = '"' then
            match parseStringBody t2 with
            | none => none
            | some (k, r1) =>
              match skipJWs r1 with
              | [] => none
              | c3 :: t3 =>
                if c3 = ':' then
                  match parseValue fuel t3 with
                  | none => none
                  | some (v, r2) =>
                    match parseFieldsTail fuel r2 with
                    | none => none
                    | some (ps, r3) => some ((String.mk k, v) :: ps, r3)
                else none
          else none
      else none

end

/-- Python `json.loads` on the modelled JSON subset: read one value, then
require only whitespace to remain.  `none` models `json.JSONDecodeError`. -/
def loads (cs : List Char) : Option JValue :=
  match parseValue (cs.length + 1) cs with
  | none => none
  | some (v, rest) => if skipJWs rest = [] then some v else none

/-- Whether a field list binds the key `k`. -/
def hasKey (fs : List (String × JValue)) (k : String) : Bool :=
  (jGet fs k).isSome

/-- No key occurs twice; `json.loads` output always satisfies this. -/
def noDupKeys : List (String × JValue) → Bool
  | [] => true
  | (k, _) :: fs => !hasKey fs k && noDupKeys fs

mutual

/-- Well-formedness: every object layer has distinct keys.  Decoded values
satisfy it, and it is exactly what makes `dumps` injective enough for the
reparse round trip. -/
def wfV : JValue → Bool
  | .null => true
  | .bool _ => true
  | .int _ => true
  | .str _ => true
  | .arr es => wfL es
  | .obj fs => noDupKeys fs && wfF fs

/-- Well-formedness of every element. -/
def wfL : List JValue → Bool
  | [] => true
  | v :: vs => wfV v && wfL vs

/-- Well-formedness of every field value. -/
def wfF : List (String × JValue) → Bool
  | [] => true
  | (_, v) :: fs => wfV v && wfF fs

end

/-- The continuations a rendered value is followed by inside `dumps` output
never begin with a digit (they begin with `,`, `]`, `\x7d`, or end the
input), so a rendered integer literal cannot capture following characters. -/
def notDigitStart : List Char → Prop
  | [] => True
  | c :: _ => c.isDigit = false


/-! ## `parse_api_response` (source lines 207-233) -/

/-- Normalization after decode (source lines 221-227): a non-mapping becomes
empty listings; a mapping without a `listings` key is wrapped as the sole
record of a fresh envelope; a mapping with the key is returned as-is. -/
def normalizeResult (result : JValue) : JValue :=
  match result with
  | .obj fs => if jGet fs "listings" = none then .obj [("listings", .arr [.obj fs])] else .obj fs
  | _ => emptyListings

/-- The substring of `response_text` handed to `json.loads` (source lines
210-217), or an exception.  In the first branch the source evaluates
`response_text.split("```json")[1].split("```").strip()`: the second `split`
returns a list, and `.strip()` on a list raises `AttributeError`
unconditionally, before any indexing of the result. -/
def selectJsonText (cs : List Char) : Except PyExc (List Char) :=
  if containsSub cs "```json".data then
    .error .attributeError
  else if containsSub cs "```".data then
    .ok (pyStrip ((splitOnSub cs "```".data).getD 1 []))
  else
    let start_idx := pyFind lbrace cs
    let end_idx := pyRfind rbrace cs + 1
    if start_idx ≠ -1 ∧ end_idx > start_idx then
      .ok (pySlice cs start_idx.toNat end_idx.toNat)
    else
      .ok cs

/-- `parse_api_response` (source lines 207-233).  Only `json.JSONDecodeError`
is caught (mapped to the empty result); the `AttributeError` of the
`"```json"` branch escapes. -/
def parse_api_response (response_text : String) : Except PyExc JValue :=
  match selectJsonText response_text.data with
  | .error e => .error e
  | .ok json_text =>
    match loads json_text with
    | none => .ok emptyListings
    | some result => .ok (normalizeResult result)

/-! ## Configuration (source lines 19-68) -/

def TOGETHER_MODEL : String := "meta-llama/Meta-Llama-3.1-70B-Instruct-Turbo"

def GROQ_MODEL : String := "llama-3.1-70b-versatile"

def MAX_TOKENS_TOGETHER : Int := 131072

def MAX_TOKENS_GROQ : Int := 128000

def MAX_OUTPUT_TOKENS_GROQ : Int := 8000

def DEFAULT_CHUNK_SIZE : Int := 30000

/-- The process-wide configuration object (class `Config`), with the URL and
field lists loaded by `load_urls` / `load_fields`. -/
structure Config where
  api_provider : String
  model : String
  together_api_key : String
  groq_api_key : String
  chunk_size : Int
  max_tokens : Int
  max_output_tokens : Int
  urls : List String
  fields : List String
deriving DecidableEq

/-- The defaults taken when `config.txt` is absent (source lines 44-52). -/
def defaultConfig : Config where
  api_provider := "together"
  model := TOGETHER_MODEL
  together_api_key := ""
  groq_api_key := ""
  chunk_size := DEFAULT_CHUNK_SIZE
  max_tokens := MAX_TOKENS_TOGETHER
  max_output_tokens := 4096
  urls := []
  fields := []

/-- Insertion-ordered dict assignment on string/string pairs (as
`objInsert`, for the configuration dict). -/
def strInsert : List (String × String) → String → String → List (String × String)
  | [], k, v => [(k, v)]
  | (k', v') :: fs, k, v =>
    if k' = k then (k', v) :: fs else (k', v') :: strInsert fs k v

/-- Python `dict(pairs)`: later pairs win, first position kept. -/
def strDictOfPairs (ps : List (String × String)) : List (String × String) :=
  ps.foldl (fun acc p => strInsert acc p.1 p.2) []

/-- Association lookup on the configuration dict. -/
def strLookup : List (String × String) → String → Option String
  | [], _ => none
  | (k', v) :: fs, k => if k' = k then some v else strLookup fs k

/-- Python `d.get(k, default)`. -/
def strGetD (d : List (String × String)) (k dflt : String) : String :=
  (strLookup d k).getD dflt

/-- Python `line.strip().split('=', 1)`: split at the first `=`. -/
def splitEq1 (cs : List Char) : String × String :=
  (String.mk (cs.takeWhile (· ≠ '=')), String.mk ((cs.dropWhile (· ≠ '=')).drop 1))

/-- Python `s.lower()`, on the ASCII range the source uses. -/
def pyLower (s : String) : String := String.mk (s.data.map Char.toLower)

/-- Python `int(s)` for a decimal literal with optional sign and surrounding
whitespace; anything else raises `ValueError` (underscored literals are not
modelled; the source never writes them). -/
def pyInt (s : String) : Except PyExc Int :=
  let cs := pyStrip s.data
  let signed : Bool × List Char :=
    match cs with
    | '-' :: t => (true, t)
    | '+' :: t => (false, t)
    | _ => (false, cs)
  if signed.2 ≠ [] ∧ signed.2.all Char.isDigit then
    .ok (if signed.1 then -(digitsToNat signed.2 : Int) else (digitsToNat signed.2 : Int))
  else
    .error .valueError

/-- `Config.load_config` (source lines 33-52), over the optional lines of
`config.txt` (`none` models `FileNotFoundError`).  Only that error is caught;
a bad `chunk_size` literal raises `ValueError` through `int(...)`. -/
def load_config (file : Option (List String)) : Except PyExc Config :=
  match file with
  | none => .ok defaultConfig
  | some lines =>
    let cfg := strDictOfPairs ((lines.filter (fun l => '=' ∈ l.data)).map
      (fun l => splitEq1 (pyStrip l.data)))
    let provider := pyLower (strGetD cfg "api_provider" "together")
    match (match strLookup cfg "chunk_size" with
           | none => .ok DEFAULT_CHUNK_SIZE
           | some s => pyInt s : Except PyExc Int) with
    | .error e => .error e
    | .ok chunkSize =>
      .ok { api_provider := provider
            model := if provider = "groq" then GROQ_MODEL else TOGETHER_MODEL
            together_api_key := strGetD cfg "together_api_key" ""
            groq_api_key := strGetD cfg "groq_api_key" ""
            chunk_size := chunkSize
            max_tokens := if provider = "groq" then MAX_TOKENS_GROQ else MAX_TOKENS_TOGETHER
            max_output_tokens := if provider = "groq" then MAX_OUTPUT_TOKENS_GROQ else 4096
            urls := []
            fields := [] }

/-- `load_urls` / `load_fields` (source lines 54-68): the stripped non-empty
lines of the file, or the empty list when the file is absent. -/
def loadLines (file : Option (List String)) : List String :=
  match file with
  | none => []
  | some lines => lines.filterMap fun l =>
      let s := pyStrip l.data
      if s = [] then none else some (String.mk s)

/-- `Config()` (source lines 27-31): load the configuration, URLs and fields. -/
def mkConfig (configFile urlsFile fieldsFile : Option (List String)) : Except PyExc Config :=
  match load_config configFile with
  | .error e => .error e
  | .ok c => .ok { c with urls := loadLines urlsFile, fields := loadLines fieldsFile }

/-! ## `get_domain_name` (source lines 70-79) -/

/-- The suffix of `hay` after the first occurrence of the nonempty `needle`,
or `[]` when it does not occur. -/
def afterSub : List Char → List Char → List Char
  | [], _ => []
  | c :: t, needle =>
    if needle.isPrefixOf (c :: t) then (c :: t).drop needle.length
    else afterSub t needle

/-- `get_domain_name`: `urlparse(url).netloc` (modelled for absolute URLs:
the text between `://` and the next delimiter) with a leading `www.`
stripped.  The source's `except` arm is unreachable for string input. -/
def get_domain_name (url : String) : String :=
  let cs := url.data
  let netloc :=
    if containsSub cs "://".data then
      (afterSub cs "://".data).takeWhile fun c => ¬(c = '/' ∨ c = '?' ∨ c = '#')
    else []
  String.mk (if "www.".data.isPrefixOf netloc then netloc.drop 4 else netloc)

/-! ## `chunk_content` (source lines 114-141) -/

/-- `content.replace('\n', ' ')`, character by character. -/
def nlToSpace (c : Char) : Char := if c = '\n' then ' ' else c

/-- Ten times the size estimate of one sentence.  Python computes
`len(sentence.split()) * 1.3`; every quantity in the loop is a whole number
of decimal tenths, so the arithmetic is carried exactly in integers scaled
by ten (`w * 1.3 ≤ b` iff `w * 13 ≤ 10 * b`). -/
def sentenceSize10 (s : List Char) : Nat := wordCount s * 13

/-- Ten times a chunk's total size estimate: the sum of its units' sizes. -/
def chunkEstimate10 (g : List (List Char)) : Nat := (g.map sentenceSize10).sum

/-- The accumulator loop of `chunk_content` (source lines 121-139), kept at
the granularity of sentence lists: each returned group is the unit list of
one chunk, in order.  `sz10` is ten times `config.chunk_size`, and the
running size is in tenths as well. -/
def chunkAux (sz10 : Int) : List (List Char) → List (List Char) → Nat → List (List (List Char))
  | [], cur, _ => if cur = [] then [] else [cur]
  | t :: rest, cur, curSize =>
    if pyStrip t = [] then chunkAux sz10 rest cur curSize
    else if ((curSize : Int) + (sentenceSize10 (pyStrip t) : Int)) > sz10 then
      (if cur = [] then [] else [cur])
        ++ chunkAux sz10 rest [pyStrip t] (sentenceSize10 (pyStrip t))
    else
      chunkAux sz10 rest (cur ++ [pyStrip t]) (curSize + sentenceSize10 (pyStrip t))

/-- `'. '.join(chunk) + '.'` (source lines 131 and 139). -/
def renderChunk : List (List Char) → List Char
  | [] => ['.']
  | [u] => u ++ ['.']
  | u :: us => u ++ '.' :: ' ' :: renderChunk us

/-- The chunk groups of `content` under budget `sz`, as unit lists. -/
def chunkGroups (content : String) (sz : Int) : List (List (List Char)) :=
  chunkAux (10 * sz) (splitChar '.' (content.data.map nlToSpace)) [] 0

/-- `chunk_content(content, config)` with `sz = config.chunk_size`. -/
def chunk_content (content : String) (sz : Int) : List String :=
  (chunkGroups content sz).map fun g => String.mk (renderChunk g)

/-- The sentence-like units of a text: split on `.`, strip each piece, drop
the empty ones (the claims' notion of unit, and the loop's own filter). -/
def unitList (cs : List Char) : List (List Char) :=
  ((splitChar '.' cs).map pyStrip).filter (· ≠ [])

/-! ## `process_with_api` (source lines 143-205) -/

def SYSTEM_MESSAGE : String :=
  "You are an intelligent text extraction and conversion assistant. Your task is to extract structured information \nfrom the given text and convert it into a pure JSON format. The JSON should contain only the structured data extracted from the text, \nwith no additional commentary, explanations, or extraneous information."

/-- The f-string user prompt (source lines 147-155), byte for byte. -/
def userPrompt (fields : List String) (content : String) : String :=
  "Extract the following fields from the content: " ++ String.intercalate ", " fields ++
    "\n        Format the output EXACTLY as:\n        \x7b\n            \"listings\": [\n                \x7b" ++
    String.intercalate ", " (fields.map fun f => "\"" ++ f ++ "\": \"value\"") ++
    "\x7d\n            ]\n        \x7d\n        \n        Content: " ++ content

/-- `prompt_tokens` (source line 171): the word counts of both prompts. -/
def prompt_tokens (content : String) (fields : List String) : Nat :=
  wordCount SYSTEM_MESSAGE.data + wordCount (userPrompt fields content).data

/-- `max_output` (source lines 172-175): no clamping is applied. -/
def max_output (content : String) (fields : List String) (cfg : Config) : Int :=
  min cfg.max_output_tokens (cfg.max_tokens - (prompt_tokens content fields : Int))

/-- The request payload posted to the provider (source lines 157-186;
`temperature` and `response_format` are constants and are omitted). -/
structure ApiRequest where
  api_url : String
  model : String
  system_prompt : String
  user_prompt : String
  max_tokens_req : Int
deriving DecidableEq

/-- Build the request `data` plus endpoint for a chunk (source lines 146-186). -/
def buildRequest (content : String) (fields : List String) (cfg : Config) : ApiRequest where
  api_url :=
    if cfg.api_provider = "together" then "https://api.together.xyz/v1/chat/completions"
    else "https://api.groq.com/openai/v1/chat/completions"
  model := cfg.model
  system_prompt := SYSTEM_MESSAGE
  user_prompt := userPrompt fields content
  max_tokens_req := max_output content fields cfg

/-- What the modelled HTTP layer yields for a request: the status code and
the extracted `choices[0].message.content` text. -/
structure HttpResponse where
  status : Nat
  contentText : String
deriving DecidableEq

/-- `process_with_api` (source lines 143-205) against an HTTP oracle.  The
whole body sits in a `try` whose `except Exception` returns the empty
result, so a transport error, a non-200 status, and the parser's
`AttributeError` all degrade to `{"listings": []}`. -/
def process_with_api (http : ApiRequest → Except PyExc HttpResponse)
    (content : String) (fields : List String) (cfg : Config) : JValue :=
  match http (buildRequest content fields cfg) with
  | .error _ => emptyListings
  | .ok resp =>
    if resp.status = 200 then
      match parse_api_response (String.mk (pyStrip resp.contentText.data)) with
      | .ok v => v
      | .error _ => emptyListings
    else emptyListings

/-! ## `save_results` and `main` (source lines 235-316) -/

/-- Python truthiness of a decoded JSON value. -/
def jTruthy : JValue → Bool
  | .null => false
  | .bool b => b
  | .int n => n ≠ 0
  | .str s => s ≠ ""
  | .arr l => l ≠ []
  | .obj fs => fs ≠ []

/-- `result.get('listings')` on the parse result (always a mapping here). -/
def jGetKey (v : JValue) (k : String) : Option JValue :=
  match v with
  | .obj fs => jGet fs k
  | _ => none

/-- Python iteration over a value, as `list.extend` consumes it: a list
yields its elements, a string its characters, a mapping its keys; scalars
raise `TypeError`. -/
def pyIter : JValue → Except PyExc (List JValue)
  | .arr l => .ok l
  | .str s => .ok (s.data.map fun c => .str (String.mk [c]))
  | .obj fs => .ok (fs.map fun p => .str p.1)
  | _ => .error .typeError

/-- The per-chunk loop of `main` (source lines 294-300): extend
`chunk_results` with each truthy `listings` value, in chunk order. -/
def chunkLoop (http : ApiRequest → Except PyExc HttpResponse) (fields : List String)
    (cfg : Config) : List String → Except PyExc (List JValue)
  | [] => .ok []
  | c :: rest =>
    let result := process_with_api http c fields cfg
    match jGetKey result "listings" with
    | none => chunkLoop http fields cfg rest
    | some ls =>
      if jTruthy result && jTruthy ls then
        match pyIter ls with
        | .error e => .error e
        | .ok xs =>
          match chunkLoop http fields cfg rest with
          | .error e => .error e
          | .ok ys => .ok (xs ++ ys)
      else chunkLoop http fields cfg rest

/-- The external collaborators of one page visit: the fetched HTML (empty on
failure) and the HTML-to-markdown conversion. -/
structure Oracles where
  fetchHtml : String → String
  htmlToMd : String → String
  http : ApiRequest → Except PyExc HttpResponse

/-- One iteration of the URL loop (source lines 277-305), yielding the
page's concatenated chunk records. -/
def processPage (cfg : Config) (o : Oracles) (url : String) : Except PyExc (List JValue) :=
  let html := o.fetchHtml url
  if html = "" then .ok []
  else chunkLoop o.http cfg.fields cfg (chunk_content (o.htmlToMd html) cfg.chunk_size)

/-- `domain_results[domain].extend(rs)` with on-demand creation (source
lines 302-305), preserving dict insertion order. -/
def addToDomain : List (String × List JValue) → String → List JValue → List (String × List JValue)
  | [], d, rs => [(d, rs)]
  | (d', rs') :: acc, d, rs =>
    if d' = d then (d', rs' ++ rs) :: acc else (d', rs') :: addToDomain acc d rs

/-- The URL loop of `main`, accumulating the per-domain record lists. -/
def runPages (cfg : Config) (o : Oracles) :
    List String → List (String × List JValue) → Except PyExc (List (String × List JValue))
  | [], acc => .ok acc
  | url :: rest, acc =>
    match processPage cfg o url with
    | .error e => .error e
    | .ok rs =>
      runPages cfg o rest (if rs ≠ [] then addToDomain acc (get_domain_name url) rs else acc)

/-- The URL list as the JSON array `save_results` assigns (source line 242). -/
def urlsJson (urls : List String) : JValue := .arr (urls.map fun u => .str u)

/-- The mutation loop of `save_results` (source lines 240-242):
`listing['source_url'] = urls` for every listing; a non-mapping listing
raises `TypeError`, caught by the function's own broad `except` (so the
domain is skipped, modelled by `none`). -/
def attachSourceUrls (listings : List JValue) (urls : List String) : Option (List JValue) :=
  match listings with
  | [] => some []
  | .obj fs :: rest =>
    (attachSourceUrls rest urls).map (.obj (objInsert fs "source_url" (urlsJson urls)) :: ·)
  | _ :: _ => none

/-- `save_results(data, domain, urls, ...)`: the JSON document written for a
domain, or `none` when the write is skipped by the broad `except`. -/
def save_results (results : List JValue) (urls : List String) : Option JValue :=
  (attachSourceUrls results urls).map fun ls => .obj [("listings", .arr ls)]

/-- The save loop of `main` (source lines 307-313): one document per domain,
in domain insertion order, each given the full `config.urls`. -/
def savePhase (cfg : Config) (dr : List (String × List JValue)) : List (String × JValue) :=
  dr.filterMap fun p => (save_results p.2 cfg.urls).map fun d => (p.1, d)

/-- The observable outcome of `main` (source lines 264-316). -/
inductive RunOutcome where
  | earlyExit
  | finished (saved : List (String × JValue))
  | aborted (e : PyExc)
deriving DecidableEq

/-- `main` over the collaborator oracles: the early exit on missing
URLs/fields, the page loop, and the save loop; an uncaught exception inside
the `try` aborts the whole run before anything is saved. -/
def mainRun (cfg : Config) (o : Oracles) : RunOutcome :=
  if cfg.urls = [] ∨ cfg.fields = [] then .earlyExit
  else
    match runPages cfg o cfg.urls [] with
    | .error e => .aborted e
    | .ok dr => .finished (savePhase cfg dr)

/-! ## Concrete instances used by witnesses and counterexamples -/

/-- A trivial oracle assembly, for concrete witnesses. -/
def nullOracles : Oracles where
  fetchHtml := fun _ => ""
  htmlToMd := fun s => s
  http := fun _ => .error .typeError

/-- `n` copies of `" a"`: a content text with exactly `n` words. -/
def spacedAs (n : Nat) : List Char := (List.replicate n [' ', 'a']).flatten

/-- A constant HTTP 500 oracle, for concrete instances. -/
def http500 : ApiRequest → Except PyExc HttpResponse := fun _ => .ok ⟨500, "boom"⟩

/-- Two configured URLs under two different domains. -/
def urlA : String := "http://a.com/one"

def urlB : String := "http://b.com/two"

/-- The default configuration pointed at the two URLs with one field. -/
def twoSiteConfig : Config :=
  { defaultConfig with urls := [urlA, urlB], fields := ["x"] }

/-- Oracles for a two-page run: each page fetches, converts to a one-sentence
text, and extracts one record (`x = 1` on the first domain, `x = 2` on the
second). -/
def twoSiteOracles : Oracles where
  fetchHtml := fun u => u
  htmlToMd := fun h => if h = urlA then "Alpha item" else "Beta item"
  http := fun req =>
    .ok ⟨200,
      if containsSub req.user_prompt.data "Alpha".data then
        "\x7b\"listings\": [\x7b\"x\": \"1\"\x7d]\x7d"
      else
        "\x7b\"listings\": [\x7b\"x\": \"2\"\x7d]\x7d"⟩

/-- The record the two-page run extracts from the first domain, after
`save_results` has attached the full configured URL list. -/
def recA : JValue := .obj [("x", .str "1"), ("source_url", .arr [.str urlA, .str urlB])]

def recB : JValue := .obj [("x", .str "2"), ("source_url", .arr [.str urlA, .str urlB])]

def docA : JValue := .obj [("listings", .arr [recA])]

def docB : JValue := .obj [("listings", .arr [recB])]

/-! # Theorems

Shared helper lemmas first, then one theorem (plus witness or
counterexample where applicable) per claim. -/

theorem jGet_objInsert_self (fs : List (String × JValue)) (k : String) (v : JValue) :
    jGet (objInsert fs k v) k = some v := by
  induction fs with
  | nil => simp [objInsert, jGet]
  | cons p fs ih =>
    obtain ⟨k', v'⟩ := p
    by_cases h : k' = k
    · simp [objInsert, h, jGet]
    · simp [objInsert, h, jGet, ih]

/-! ## C1 and C6: the `"```json"` branch raises `AttributeError` -/

/-- C1: the claim says `parse_api_response` never raises and maps any
malformation to `\x7b"listings": []\x7d`.  The code contradicts this intent:
`response_text.split("```json")[1].split("```").strip()` calls `.strip()` on
a list, so every input containing `"```json"` raises `AttributeError`; the
non-fenced malformed path does return the empty result as documented. -/
theorem c1_attribute_error_on_json_fence :
    parse_api_response "```json\n\x7b\x7d\n```" = .error .attributeError ∧
    parse_api_response "this is not JSON at all" = .ok emptyListings := by decide

/-- C6: of the three documented inputs, the second and third produce the
documented normalized shapes, but the first (the `"```json"`-fenced block)
raises `AttributeError` instead of yielding the decoded mapping. -/
theorem c6_documented_inputs :
    parse_api_response "```json\n\x7b\"listings\":[\x7b\"a\":\"1\"\x7d]\x7d\n```"
      = .error .attributeError ∧
    parse_api_response "\x7b\"a\":\"1\"\x7d"
      = .ok (.obj [("listings", .arr [.obj [("a", .str "1")]])]) ∧
    parse_api_response "not json at all" = .ok emptyListings := by decide

/-! ## C10: a decoded mapping with a `listings` key is returned unchanged -/

/-- C10: whenever the selected substring decodes to a mapping that has a
`listings` key, `parse_api_response` returns that mapping as-is: the type of
the `listings` value is never validated. -/
theorem c10_listings_not_validated (x : String) (s : List Char)
    (fs : List (String × JValue)) (hsel : selectJsonText x.data = .ok s)
    (hdec : loads s = some (.obj fs)) (hkey : jGet fs "listings" ≠ none) :
    parse_api_response x = .ok (.obj fs) := by
  unfold parse_api_response
  rw [hsel]
  dsimp only
  rw [hdec]
  simp [normalizeResult, hkey]

theorem c10_listings_not_validated_witness :
    loads "\x7b\"listings\": \"oops\"\x7d".data = some (.obj [("listings", .str "oops")]) ∧
    parse_api_response "\x7b\"listings\": \"oops\"\x7d" = .ok (.obj [("listings", .str "oops")]) :=
  ⟨by decide,
    c10_listings_not_validated "\x7b\"listings\": \"oops\"\x7d"
      "\x7b\"listings\": \"oops\"\x7d".data [("listings", .str "oops")]
      (by decide) (by decide) (by decide)⟩

/-! ## C9: defaults on a missing configuration file; early exit -/

/-- C9: an absent `config.txt` yields the hardcoded defaults (provider
`together`, the 131072-token context, 4096 output tokens, chunk size 30000)
instead of failing startup, and a run whose URL list or field list is empty
terminates early, before any fetching, chunking, extraction or saving. -/
theorem c9_defaults_and_early_exit :
    load_config none = .ok defaultConfig ∧
    defaultConfig.api_provider = "together" ∧
    defaultConfig.max_tokens = 131072 ∧
    defaultConfig.max_output_tokens = 4096 ∧
    defaultConfig.chunk_size = 30000 ∧
    ∀ (cfg : Config) (o : Oracles), cfg.urls = [] ∨ cfg.fields = [] →
      mainRun cfg o = .earlyExit := by
  refine ⟨rfl, rfl, rfl, rfl, rfl, fun cfg o h => ?_⟩
  unfold mainRun
  rw [if_pos h]

theorem c9_defaults_and_early_exit_witness :
    (defaultConfig.urls = [] ∨ defaultConfig.fields = []) ∧
    mainRun defaultConfig nullOracles = .earlyExit :=
  ⟨Or.inl rfl,
    c9_defaults_and_early_exit.2.2.2.2.2 defaultConfig nullOracles (Or.inl rfl)⟩

/-! ## C3: the output cap formula, and the absence of clamping -/

theorem foldl_wcStep_spacedAs (n : Nat) :
    ∀ s : Bool × Nat, List.foldl wcStep s (spacedAs n) = if n = 0 then s else (true, s.2 + n) := by
  induction n with
  | zero => intro s; simp [spacedAs]
  | succ n ih =>
    intro s
    have hstep : spacedAs (n + 1) = ' ' :: 'a' :: spacedAs n := by
      simp [spacedAs, List.replicate_succ]
    rw [hstep]
    simp only [List.foldl_cons]
    have h1 : wcStep s ' ' = (false, s.2) := by simp [wcStep, isPyWs]
    have h2 : wcStep (false, s.2) 'a' = (true, s.2 + 1) := by simp [wcStep, isPyWs]
    rw [h1, h2, ih]
    by_cases hn : n = 0
    · simp [hn]
    · simp only [hn, if_false, if_neg (Nat.succ_ne_zero n)]
      have harith : s.2 + 1 + n = s.2 + (n + 1) := by omega
      rw [harith]

/-- The content appears only at the very end of the user prompt. -/
theorem userPrompt_append (fields : List String) (c : String) :
    userPrompt fields c = userPrompt fields "" ++ c := by
  simp [userPrompt, String.append_empty]

theorem wordCount_append_spacedAs (p : List Char) (n : Nat) (h : n ≠ 0) :
    wordCount (p ++ spacedAs n) = (p.foldl wcStep (false, 0)).2 + n := by
  rw [wordCount, List.foldl_append, foldl_wcStep_spacedAs, if_neg h]

/-- With the default configuration and a content of more than 131072 words,
the requested cap `min(max_output_tokens, max_tokens - prompt_tokens)` is
negative: nothing in the code clamps it. -/
theorem max_output_spacedAs_neg (n : Nat) (h : 131072 < n) :
    max_output (String.mk (spacedAs n)) ["price"] defaultConfig < 0 := by
  have hup : (userPrompt ["price"] (String.mk (spacedAs n))).data
      = (userPrompt ["price"] "").data ++ spacedAs n := by
    rw [userPrompt_append]
    exact String.data_append _ _
  have hwc : wordCount (userPrompt ["price"] (String.mk (spacedAs n))).data
      = ((userPrompt ["price"] "").data.foldl wcStep (false, 0)).2 + n := by
    rw [hup, wordCount_append_spacedAs _ n (by omega)]
  have hneg : defaultConfig.max_tokens
      - ((prompt_tokens (String.mk (spacedAs n)) ["price"] : Nat) : Int) < 0 := by
    rw [prompt_tokens, hwc]
    have hmt : defaultConfig.max_tokens = 131072 := rfl
    rw [hmt]
    push_cast
    omega
  rw [max_output]
  exact lt_of_le_of_lt (min_le_right _ _) hneg

/-- C3 (corrected): the requested output cap equals
`min(max_output_tokens, max_tokens - (wc(system) + wc(user)))` exactly as
claimed, but no non-negativity clamp exists: with the default configuration
an oversized content makes the requested cap negative. -/
theorem c3_output_cap_formula_unclamped :
    (∀ (content : String) (fields : List String) (cfg : Config),
      (buildRequest content fields cfg).max_tokens_req =
        min cfg.max_output_tokens
          (cfg.max_tokens - ((wordCount SYSTEM_MESSAGE.data
            + wordCount (userPrompt fields content).data : Nat) : Int))) ∧
    ∃ (content : String) (fields : List String),
      (buildRequest content fields defaultConfig).max_tokens_req < 0 := by
  constructor
  · intro content fields cfg
    rfl
  · exact ⟨String.mk (spacedAs 131073), ["price"],
      max_output_spacedAs_neg 131073 (by omega)⟩

/-- C3, counterexample to the claim as stated: the cap is not clamped to be
non-negative — at this concrete chunk, field list and configuration the
requested cap is negative. -/
theorem c3_counterexample_negative_cap :
    (buildRequest (String.mk (spacedAs 131073)) ["price"] defaultConfig).max_tokens_req < 0 :=
  max_output_spacedAs_neg 131073 (by omega)

/-! ## C8: non-2xx statuses and exceptions degrade to the empty result -/

theorem process_with_api_non200 (http : ApiRequest → Except PyExc HttpResponse)
    (content : String) (fields : List String) (cfg : Config) (r : HttpResponse)
    (h : http (buildRequest content fields cfg) = .ok r) (hs : r.status ≠ 200) :
    process_with_api http content fields cfg = emptyListings := by
  unfold process_with_api
  rw [h]
  dsimp only
  rw [if_neg hs]

theorem process_with_api_exc (http : ApiRequest → Except PyExc HttpResponse)
    (content : String) (fields : List String) (cfg : Config) (e : PyExc)
    (h : http (buildRequest content fields cfg) = .error e) :
    process_with_api http content fields cfg = emptyListings := by
  unfold process_with_api
  rw [h]

/-- C8: a non-2xx completion status or a transport exception makes
`process_with_api` return `\x7b"listings": []\x7d` rather than raise, and the
per-chunk loop of `main` is unaffected: a failing chunk contributes nothing
and the remaining chunks of the page are still processed. -/
theorem c8_failures_degrade_and_continue :
    (∀ (http : ApiRequest → Except PyExc HttpResponse) (content : String)
        (fields : List String) (cfg : Config) (r : HttpResponse),
      http (buildRequest content fields cfg) = .ok r →
      r.status < 200 ∨ 300 ≤ r.status →
      process_with_api http content fields cfg = emptyListings) ∧
    (∀ (http : ApiRequest → Except PyExc HttpResponse) (content : String)
        (fields : List String) (cfg : Config) (e : PyExc),
      http (buildRequest content fields cfg) = .error e →
      process_with_api http content fields cfg = emptyListings) ∧
    (∀ (http : ApiRequest → Except PyExc HttpResponse) (fields : List String)
        (cfg : Config) (pre post : List String) (c : String) (r : HttpResponse),
      http (buildRequest c fields cfg) = .ok r →
      r.status < 200 ∨ 300 ≤ r.status →
      chunkLoop http fields cfg (pre ++ c :: post) = chunkLoop http fields cfg (pre ++ post)) := by
  refine ⟨fun http content fields cfg r h hs =>
      process_with_api_non200 http content fields cfg r h (by omega),
    fun http content fields cfg e h => process_with_api_exc http content fields cfg e h,
    fun http fields cfg pre post c r h hs => ?_⟩
  induction pre with
  | nil =>
    have hp := process_with_api_non200 http c fields cfg r h (by omega)
    simp [chunkLoop, hp, jGetKey, jGet, emptyListings, jTruthy]
  | cons x pre ih =>
    simp only [List.cons_append, chunkLoop, List.append_eq]
    rw [ih]

theorem c8_failures_degrade_and_continue_witness :
    http500 (buildRequest "chunk" [] defaultConfig) = .ok ⟨500, "boom"⟩ ∧
    ((500 : Nat) < 200 ∨ 300 ≤ (500 : Nat)) ∧
    process_with_api http500 "chunk" [] defaultConfig = emptyListings ∧
    chunkLoop http500 [] defaultConfig (["p"] ++ "chunk" :: ["q"])
      = chunkLoop http500 [] defaultConfig (["p"] ++ ["q"]) :=
  ⟨rfl, by omega,
    c8_failures_degrade_and_continue.1 http500 "chunk" [] defaultConfig ⟨500, "boom"⟩ rfl
      (by decide),
    c8_failures_degrade_and_continue.2.2 http500 [] defaultConfig ["p"] ["q"] "chunk"
      ⟨500, "boom"⟩ rfl (by decide)⟩

/-! ## C2: provenance attachment -/

theorem attachSourceUrls_mem (urls : List String) (rs : List JValue) :
    ∀ ls : List JValue, attachSourceUrls rs urls = some ls →
      ∀ l ∈ ls, ∃ fs, l = .obj (objInsert fs "source_url" (urlsJson urls)) := by
  induction rs with
  | nil =>
    intro ls h l hl
    simp only [attachSourceUrls, Option.some.injEq] at h
    subst h
    simp at hl
  | cons x rest ih =>
    intro ls h l hl
    match x with
    | .null | .bool _ | .int _ | .str _ | .arr _ => simp [attachSourceUrls] at h
    | .obj fs =>
      simp only [attachSourceUrls] at h
      cases hrec : attachSourceUrls rest urls with
      | none => rw [hrec] at h; simp at h
      | some tl =>
        rw [hrec] at h
        simp only [Option.map_some', Option.some.injEq] at h
        subst h
        rcases List.mem_cons.mp hl with hhead | htail
        · exact ⟨fs, hhead⟩
        · exact ih tl hrec l htail

/-- C2 (corrected): every record of every saved domain bucket is augmented
with a `source_url` attribute equal to the JSON array of the full global
`config.urls` — the entire configured URL list across all domains, not the
set of URLs processed for the record's own domain (`main` passes
`config.urls` to `save_results` for every domain). -/
theorem c2_source_url_is_global_url_list (cfg : Config) (o : Oracles)
    (saved : List (String × JValue)) (d : String) (doc : JValue)
    (ls : List JValue) (l : JValue)
    (hrun : mainRun cfg o = .finished saved) (hmem : (d, doc) ∈ saved)
    (hls : jGetKey doc "listings" = some (.arr ls)) (hl : l ∈ ls) :
    jGetKey l "source_url" = some (urlsJson cfg.urls) := by
  unfold mainRun at hrun
  split at hrun
  · exact absurd hrun (by simp)
  · split at hrun
    · exact absurd hrun (by simp)
    · rename_i dr heq
      rw [RunOutcome.finished.injEq] at hrun
      subst hrun
      rw [savePhase] at hmem
      obtain ⟨⟨d', rs⟩, hin, hf⟩ := List.mem_filterMap.mp hmem
      simp only [Option.map_eq_some'] at hf
      obtain ⟨doc', hsave, hpair⟩ := hf
      obtain ⟨hd, hdoc⟩ := Prod.mk.inj hpair
      subst hdoc
      rw [save_results] at hsave
      simp only [Option.map_eq_some'] at hsave
      obtain ⟨ls', hattach, hdoc'⟩ := hsave
      subst hdoc'
      simp only [jGetKey, jGet, if_true, Option.some.injEq, JValue.arr.injEq] at hls
      subst hls
      obtain ⟨fs, hlfs⟩ := attachSourceUrls_mem cfg.urls rs _ hattach l hl
      subst hlfs
      simp only [jGetKey]
      exact jGet_objInsert_self fs "source_url" (urlsJson cfg.urls)

set_option maxRecDepth 4000 in
theorem c2_source_url_is_global_url_list_witness :
    mainRun twoSiteConfig twoSiteOracles = .finished [("a.com", docA), ("b.com", docB)] ∧
    ("a.com", docA) ∈ [("a.com", docA), ("b.com", docB)] ∧
    jGetKey docA "listings" = some (.arr [recA]) ∧
    recA ∈ [recA] ∧
    jGetKey recA "source_url" = some (urlsJson twoSiteConfig.urls) :=
  ⟨by decide, by decide, by decide, by decide,
    c2_source_url_is_global_url_list twoSiteConfig twoSiteOracles
      [("a.com", docA), ("b.com", docB)] "a.com" docA [recA] recA
      (by decide) (by decide) (by decide) (by decide)⟩

set_option maxRecDepth 4000 in
/-- C2, counterexample to the claim as stated: in a two-domain run the
record extracted from domain `a.com` carries both configured URLs under
`source_url`, while the set of URLs processed for that domain is just the
first one. -/
theorem c2_counterexample_global_not_domain :
    mainRun twoSiteConfig twoSiteOracles = .finished [("a.com", docA), ("b.com", docB)] ∧
    jGetKey recA "source_url" = some (.arr [.str urlA, .str urlB]) ∧
    twoSiteConfig.urls.filter (fun u => get_domain_name u = "a.com") = [urlA] ∧
    (.arr [.str urlA, .str urlB] : JValue) ≠ .arr [.str urlA] := by
  exact ⟨by decide, by decide, by decide, by decide⟩

/-! ## C4 and C5: chunking lemmas -/

theorem splitChar_shape (sep : Char) (cs : List Char) :
    ∃ u us, splitChar sep cs = u :: us := by
  induction cs with
  | nil => exact ⟨[], [], rfl⟩
  | cons c t ih =>
    by_cases h : c = sep
    · exact ⟨[], splitChar sep t, by simp [splitChar, h]⟩
    · obtain ⟨u, us, hu⟩ := ih
      exact ⟨c :: u, us, by simp [splitChar, h, hu]⟩

theorem splitChar_cons_ne {sep c : Char} {t u : List Char} {us : List (List Char)}
    (h : c ≠ sep) (he : splitChar sep t = u :: us) :
    splitChar sep (c :: t) = (c :: u) :: us := by
  simp [splitChar, h, he]

theorem mem_splitChar_not_sep (sep : Char) :
    ∀ (cs : List Char), ∀ t ∈ splitChar sep cs, sep ∉ t := by
  intro cs
  induction cs with
  | nil =>
    intro t ht
    simp only [splitChar, List.mem_singleton] at ht
    subst ht
    simp
  | cons c rest ih =>
    intro t ht
    by_cases h : c = sep
    · simp only [splitChar, if_pos h, List.mem_cons] at ht
      rcases ht with rfl | ht
      · simp
      · exact ih t ht
    · obtain ⟨u, us, hu⟩ := splitChar_shape sep rest
      rw [splitChar_cons_ne h hu] at ht
      rcases List.mem_cons.mp ht with rfl | ht
      · intro hmem
        rcases List.mem_cons.mp hmem with rfl | hmem
        · exact h rfl
        · exact ih u (hu ▸ List.mem_cons_self u us) hmem
      · exact ih t (hu ▸ List.mem_cons_of_mem u ht)

theorem splitChar_append_sep {sep : Char} {u : List Char} (rest : List Char)
    (h : sep ∉ u) : splitChar sep (u ++ sep :: rest) = u :: splitChar sep rest := by
  induction u with
  | nil => simp [splitChar]
  | cons c t ih =>
    have hc : c ≠ sep := fun hc => h (hc ▸ List.mem_cons_self c t)
    have ht : splitChar sep (t ++ sep :: rest) = t :: splitChar sep rest :=
      ih fun hm => h (List.mem_cons_of_mem c hm)
    simpa using splitChar_cons_ne hc ht

theorem pyStrip_cons_ws {c : Char} (h : isPyWs c = true) (cs : List Char) :
    pyStrip (c :: cs) = pyStrip cs := by
  simp [pyStrip, List.dropWhile_cons, h]

/-- `pyStrip` is Mathlib's right-drop of whitespace after the left-drop. -/
theorem pyStrip_eq (cs : List Char) :
    pyStrip cs = List.rdropWhile isPyWs (List.dropWhile isPyWs cs) := rfl

/-- A prefix of a `dropWhile`-fixed list is itself `dropWhile`-fixed. -/
theorem dropWhile_eq_self_of_prefix {p : Char → Bool} :
    ∀ {l q : List Char}, List.dropWhile p l = l → q <+: l → List.dropWhile p q = q := by
  intro l q hl hq
  cases q with
  | nil => simp
  | cons c t =>
    cases l with
    | nil => exact absurd (List.prefix_nil.mp hq) (by simp)
    | cons d s =>
      obtain ⟨r, hr⟩ := hq
      rw [List.cons_append] at hr
      have hcd : c = d := (List.cons.injEq .. ▸ hr).1
      subst hcd
      have hpd : p c = false := by
        by_contra hpc
        simp only [Bool.not_eq_false] at hpc
        rw [List.dropWhile_cons, if_pos hpc] at hl
        have hlen := congrArg List.length hl
        have hle : (List.dropWhile p s).length ≤ s.length :=
          (List.dropWhile_suffix p).length_le
        simp at hlen
        omega
      simp [List.dropWhile_cons, hpd]

theorem pyStrip_no_lead (cs : List Char) :
    List.dropWhile isPyWs (pyStrip cs) = pyStrip cs := by
  rw [pyStrip_eq]
  exact dropWhile_eq_self_of_prefix (List.dropWhile_idempotent _ _) (List.rdropWhile_prefix _ _)

theorem pyStrip_no_trail (cs : List Char) :
    List.rdropWhile isPyWs (pyStrip cs) = pyStrip cs := by
  rw [pyStrip_eq]
  exact List.rdropWhile_idempotent _ _

theorem pyStrip_idem (cs : List Char) : pyStrip (pyStrip cs) = pyStrip cs := by
  calc pyStrip (pyStrip cs)
      = List.rdropWhile isPyWs (List.dropWhile isPyWs (pyStrip cs)) := pyStrip_eq _
    _ = List.rdropWhile isPyWs (pyStrip cs) := by rw [pyStrip_no_lead]
    _ = pyStrip cs := pyStrip_no_trail cs

theorem mem_pyStrip {c : Char} {cs : List Char} (h : c ∈ pyStrip cs) : c ∈ cs := by
  rw [pyStrip_eq] at h
  have h1 := (List.rdropWhile_prefix isPyWs _).subset h
  exact (List.dropWhile_suffix isPyWs).subset h1

/-- The concatenation invariant of the chunk loop: the chunks' units are the
pending accumulator followed by the stripped non-empty sentences, in order. -/
theorem chunkAux_flatten (sz : Int) :
    ∀ (sents cur : List (List Char)) (k : Nat),
      (chunkAux sz sents cur k).flatten = cur ++ (sents.map pyStrip).filter (· ≠ []) := by
  intro sents
  induction sents with
  | nil =>
    intro cur k
    by_cases h : cur = []
    · simp [chunkAux, h]
    · simp [chunkAux, h]
  | cons t rest ih =>
    intro cur k
    rw [chunkAux]
    by_cases hs : pyStrip t = []
    · simp [hs, ih]
    · rw [if_neg hs]
      split
      · by_cases hc : cur = []
        · simp [hc, ih, hs]
        · simp [hc, ih, hs]
      · rw [ih]
        simp [hs]

/-- Every chunk the loop emits is a non-empty group. -/
theorem chunkAux_ne_nil (sz : Int) :
    ∀ (sents cur : List (List Char)) (k : Nat), ∀ g ∈ chunkAux sz sents cur k, g ≠ [] := by
  intro sents
  induction sents with
  | nil =>
    intro cur k g hg
    by_cases h : cur = []
    · simp [chunkAux, h] at hg
    · simp only [chunkAux, if_neg h, List.mem_singleton] at hg
      subst hg; exact h
  | cons t rest ih =>
    intro cur k g hg
    rw [chunkAux] at hg
    by_cases hs : pyStrip t = []
    · rw [if_pos hs] at hg
      exact ih cur k g hg
    · rw [if_neg hs] at hg
      split at hg
      · rcases List.mem_append.mp hg with hg | hg
        · by_cases hc : cur = []
          · simp [hc] at hg
          · simp only [if_neg hc, List.mem_singleton] at hg
            subst hg; exact hc
        · exact ih _ _ g hg
      · exact ih _ _ g hg

/-- Unit-level properties survive the chunk loop: if every unit pending in
the accumulator satisfies `Q`, and every stripped non-empty sentence does,
then every unit of every emitted chunk does. -/
theorem chunkAux_units_prop (sz : Int) (Q : List Char → Prop) :
    ∀ (sents cur : List (List Char)) (k : Nat),
      (∀ t ∈ sents, pyStrip t ≠ [] → Q (pyStrip t)) → (∀ u ∈ cur, Q u) →
      ∀ g ∈ chunkAux sz sents cur k, ∀ u ∈ g, Q u := by
  intro sents
  induction sents with
  | nil =>
    intro cur k _ hcur g hg u hu
    by_cases h : cur = []
    · simp [chunkAux, h] at hg
    · simp only [chunkAux, if_neg h, List.mem_singleton] at hg
      subst hg; exact hcur u hu
  | cons t rest ih =>
    intro cur k hsent hcur g hg u hu
    have hrest : ∀ t' ∈ rest, pyStrip t' ≠ [] → Q (pyStrip t') :=
      fun t' ht' => hsent t' (List.mem_cons_of_mem t ht')
    rw [chunkAux] at hg
    by_cases hs : pyStrip t = []
    · rw [if_pos hs] at hg
      exact ih cur k hrest hcur g hg u hu
    · have hQt : Q (pyStrip t) := hsent t (List.mem_cons_self t rest) hs
      rw [if_neg hs] at hg
      split at hg
      · rcases List.mem_append.mp hg with hg | hg
        · by_cases hc : cur = []
          · simp [hc] at hg
          · simp only [if_neg hc, List.mem_singleton] at hg
            subst hg; exact hcur u hu
        · refine ih _ _ hrest ?_ g hg u hu
          intro v hv
          rw [List.mem_singleton] at hv
          subst hv; exact hQt
      · refine ih _ _ hrest ?_ g hg u hu
        intro v hv
        rcases List.mem_append.mp hv with hv | hv
        · exact hcur v hv
        · rw [List.mem_singleton] at hv
          subst hv; exact hQt

/-- The size invariant of the chunk loop: when no single stripped sentence
exceeds the budget, no emitted chunk does either. -/
theorem chunkAux_size_le (sz : Int) :
    ∀ (sents cur : List (List Char)) (k : Nat),
      (∀ t ∈ sents, pyStrip t ≠ [] → (sentenceSize10 (pyStrip t) : Int) ≤ sz) →
      k = chunkEstimate10 cur → (cur = [] ∨ (chunkEstimate10 cur : Int) ≤ sz) →
      ∀ g ∈ chunkAux sz sents cur k, (chunkEstimate10 g : Int) ≤ sz := by
  intro sents
  induction sents with
  | nil =>
    intro cur k _ _ hinv g hg
    by_cases h : cur = []
    · simp [chunkAux, h] at hg
    · simp only [chunkAux, if_neg h, List.mem_singleton] at hg
      subst hg
      exact hinv.resolve_left h
  | cons t rest ih =>
    intro cur k hsent hk hinv g hg
    have hrest : ∀ t' ∈ rest, pyStrip t' ≠ [] → (sentenceSize10 (pyStrip t') : Int) ≤ sz :=
      fun t' ht' => hsent t' (List.mem_cons_of_mem t ht')
    rw [chunkAux] at hg
    by_cases hs : pyStrip t = []
    · rw [if_pos hs] at hg
      exact ih cur k hrest hk hinv g hg
    · have hsz : (sentenceSize10 (pyStrip t) : Int) ≤ sz :=
        hsent t (List.mem_cons_self t rest) hs
      rw [if_neg hs] at hg
      split at hg
      · rcases List.mem_append.mp hg with hg | hg
        · by_cases hc : cur = []
          · simp [hc] at hg
          · simp only [if_neg hc, List.mem_singleton] at hg
            subst hg
            exact hinv.resolve_left hc
        · refine ih _ _ hrest ?_ (Or.inr ?_) g hg
          · simp [chunkEstimate10]
          · simpa [chunkEstimate10] using hsz
      · rename_i hover
        have hle : ((k : Int) + (sentenceSize10 (pyStrip t) : Int)) ≤ sz := by omega
        refine ih _ _ hrest ?_ (Or.inr ?_) g hg
        · simp [chunkEstimate10, hk]
        · subst hk
          simp only [chunkEstimate10, List.map_append, List.sum_append,
            List.map_cons, List.sum_cons, List.map_nil, List.sum_nil] at hle ⊢
          push_cast at hle ⊢
          omega

theorem stringJoin_foldl_data (l : List String) :
    ∀ a : String, (l.foldl (· ++ ·) a).data = a.data ++ (l.map String.data).flatten := by
  induction l with
  | nil => intro a; simp
  | cons s rest ih =>
    intro a
    simp only [List.foldl_cons, ih, List.map_cons, List.flatten_cons, String.data_append,
      List.append_assoc]

theorem stringJoin_data (l : List String) :
    (String.join l).data = (l.map String.data).flatten := by
  rw [String.join, stringJoin_foldl_data]
  rfl

theorem unitList_nil : unitList [] = [] := by decide

theorem unitList_cons_space (cs : List Char) : unitList (' ' :: cs) = unitList cs := by
  obtain ⟨u, us, hu⟩ := splitChar_shape '.' cs
  rw [unitList, splitChar_cons_ne (by decide) hu, unitList, hu]
  simp only [List.map_cons, List.filter_cons]
  rw [pyStrip_cons_ws (by decide)]

theorem unitList_unit_append {u : List Char} (rest : List Char)
    (hdot : '.' ∉ u) (hne : u ≠ []) (hstr : pyStrip u = u) :
    unitList (u ++ '.' :: rest) = u :: unitList rest := by
  rw [unitList, splitChar_append_sep rest hdot]
  simp only [List.map_cons, hstr, List.filter_cons]
  simp [hne, unitList]

/-- Splitting a rendered chunk back into units recovers exactly its group:
each unit is non-empty, already stripped, and free of periods, so the
`'. '`-join and trailing period dissolve under `unitList`. -/
theorem unitList_renderChunk_append (g : List (List Char)) (hne : g ≠ [])
    (hu : ∀ u ∈ g, u ≠ [] ∧ pyStrip u = u ∧ '.' ∉ u) :
    ∀ tail : List Char, unitList (renderChunk g ++ tail) = g ++ unitList tail := by
  induction g with
  | nil => exact absurd rfl hne
  | cons u us ih =>
    intro tail
    obtain ⟨hu1, hu2, hu3⟩ := hu u (List.mem_cons_self u us)
    cases us with
    | nil =>
      rw [renderChunk]
      rw [show (u ++ ['.']) ++ tail = u ++ '.' :: tail by simp]
      rw [unitList_unit_append tail hu3 hu1 hu2]
      rfl
    | cons v vs =>
      rw [renderChunk]
      rw [show (u ++ '.' :: ' ' :: renderChunk (v :: vs)) ++ tail
            = u ++ '.' :: (' ' :: (renderChunk (v :: vs) ++ tail)) by simp]
      rw [unitList_unit_append _ hu3 hu1 hu2, unitList_cons_space]
      have ihh := ih (List.cons_ne_nil v vs) (fun w hw => hu w (List.mem_cons_of_mem u hw)) tail
      rw [ihh]
      rfl
      exact List.cons_ne_nil v vs

theorem unitList_flatten_chunks (groups : List (List (List Char)))
    (hne : ∀ g ∈ groups, g ≠ [])
    (hu : ∀ g ∈ groups, ∀ u ∈ g, u ≠ [] ∧ pyStrip u = u ∧ '.' ∉ u) :
    unitList (groups.map renderChunk).flatten = groups.flatten := by
  induction groups with
  | nil => simpa using unitList_nil
  | cons g gs ih =>
    simp only [List.map_cons, List.flatten_cons]
    rw [unitList_renderChunk_append g (hne g (List.mem_cons_self g gs))
      (hu g (List.mem_cons_self g gs))]
    rw [ih (fun g' hg' => hne g' (List.mem_cons_of_mem g hg'))
      (fun g' hg' => hu g' (List.mem_cons_of_mem g hg'))]

/-- The well-formedness of every chunk group the loop produces. -/
theorem chunkGroups_units_wf (content : String) (sz : Int) :
    ∀ g ∈ chunkGroups content sz, ∀ u ∈ g, u ≠ [] ∧ pyStrip u = u ∧ '.' ∉ u := by
  intro g hg u hu
  refine chunkAux_units_prop (10 * sz) (fun u => u ≠ [] ∧ pyStrip u = u ∧ '.' ∉ u)
    _ [] 0 ?_ (by simp) g hg u hu
  intro t ht hn
  refine ⟨hn, pyStrip_idem t, fun hdot => ?_⟩
  exact mem_splitChar_not_sep '.' _ t ht (mem_pyStrip hdot)

/-- C4: re-splitting the concatenation of all chunks on `.`, trimming, and
dropping empty units recovers exactly the non-empty trimmed units of the
newline-collapsed input, in order: chunking never drops or reorders a unit. -/
theorem c4_chunking_preserves_units (content : String) (sz : Int) :
    unitList (String.join (chunk_content content sz)).data
      = unitList (content.data.map nlToSpace) := by
  have hdata : (String.join (chunk_content content sz)).data
      = ((chunkGroups content sz).map renderChunk).flatten := by
    rw [stringJoin_data, chunk_content]
    rw [List.map_map]
    rfl
  rw [hdata,
    unitList_flatten_chunks (chunkGroups content sz)
      (fun g hg => chunkAux_ne_nil _ _ [] 0 g hg) (chunkGroups_units_wf content sz),
    chunkGroups, chunkAux_flatten, List.nil_append]
  rfl

/-- C5: when the budget dominates every single unit's estimate, no chunk's
total estimate exceeds the budget (sizes are in tenths of the Python
estimate: `sentenceSize10 u = len(u.split()) * 13` is ten times
`len(u.split()) * 1.3`, and the budget is `10 * max_size`); consequently a
chunk exceeding the budget (impossible here) could only be one oversize
unit. -/
theorem c5_chunk_size_bounded (content : String) (sz : Int)
    (H : ∀ u ∈ unitList (content.data.map nlToSpace), (sentenceSize10 u : Int) ≤ 10 * sz) :
    ∀ c ∈ chunk_content content sz,
      (chunkEstimate10 (unitList c.data) : Int) ≤ 10 * sz ∧
      (10 * sz < (chunkEstimate10 (unitList c.data) : Int) →
        ∃ u, unitList c.data = [u] ∧ 10 * sz < (sentenceSize10 u : Int)) := by
  intro c hc
  rw [chunk_content] at hc
  obtain ⟨g, hg, hcg⟩ := List.mem_map.mp hc
  have hwf := chunkGroups_units_wf content sz g hg
  have hgne := chunkAux_ne_nil (10 * sz) _ [] 0 g hg
  have hcu : unitList c.data = g := by
    rw [← hcg]
    have : (String.mk (renderChunk g)).data = renderChunk g ++ [] := by simp
    rw [this, unitList_renderChunk_append g hgne hwf, unitList_nil, List.append_nil]
  have hsent : ∀ t ∈ splitChar '.' (content.data.map nlToSpace), pyStrip t ≠ [] →
      (sentenceSize10 (pyStrip t) : Int) ≤ 10 * sz := by
    intro t ht hn
    refine H (pyStrip t) (List.mem_filter.mpr ⟨List.mem_map_of_mem pyStrip ht, by simpa⟩)
  have hle := chunkAux_size_le (10 * sz) _ [] 0 hsent rfl (Or.inl rfl) g hg
  rw [hcu]
  exact ⟨hle, fun hlt => absurd hle (by omega)⟩

theorem c5_chunk_size_bounded_witness :
    (∀ u ∈ unitList ("Alpha beta. Gamma delta epsilon zeta. Eta.".data.map nlToSpace),
      (sentenceSize10 u : Int) ≤ 10 * 10) ∧
    (∀ c ∈ chunk_content "Alpha beta. Gamma delta epsilon zeta. Eta." 10,
      (chunkEstimate10 (unitList c.data) : Int) ≤ 10 * 10 ∧
      (10 * 10 < (chunkEstimate10 (unitList c.data) : Int) →
        ∃ u, unitList c.data = [u] ∧ 10 * 10 < (sentenceSize10 u : Int))) :=
  ⟨by decide, c5_chunk_size_bounded "Alpha beta. Gamma delta epsilon zeta. Eta." 10 (by decide)⟩

/-! ## C7: dictionary lemmas for the reparse round trip -/

theorem jGet_objInsert_ne {fs : List (String × JValue)} {k k' : String} (v : JValue)
    (h : k' ≠ k) : jGet (objInsert fs k v) k' = jGet fs k' := by
  have hne : ¬k = k' := fun hh => h hh.symm
  induction fs with
  | nil => simp [objInsert, jGet, hne]
  | cons p fs ih =>
    obtain ⟨k0, v0⟩ := p
    by_cases h0 : k0 = k
    · subst h0
      simp [objInsert, jGet, hne]
    · simp only [objInsert, if_neg h0]
      by_cases h1 : k0 = k'
      · simp [jGet, h1]
      · simp [jGet, h1, ih]

theorem hasKey_objInsert_ne {fs : List (String × JValue)} {k k' : String} (v : JValue)
    (h : k' ≠ k) : hasKey (objInsert fs k v) k' = hasKey fs k' := by
  rw [hasKey, hasKey, jGet_objInsert_ne v h]

theorem hasKey_append (l1 l2 : List (String × JValue)) (k : String) :
    hasKey (l1 ++ l2) k = (hasKey l1 k || hasKey l2 k) := by
  induction l1 with
  | nil => simp [hasKey, jGet]
  | cons p l1 ih =>
    obtain ⟨k0, v0⟩ := p
    by_cases h : k0 = k
    · simp [hasKey, jGet, h]
    · simp only [List.cons_append, hasKey, jGet, if_neg h] at ih ⊢
      exact ih

theorem noDupKeys_objInsert {fs : List (String × JValue)} (k : String) (v : JValue)
    (h : noDupKeys fs = true) : noDupKeys (objInsert fs k v) = true := by
  induction fs with
  | nil => simp [objInsert, noDupKeys, hasKey, jGet]
  | cons p fs ih =>
    obtain ⟨k0, v0⟩ := p
    simp only [noDupKeys, Bool.and_eq_true, Bool.not_eq_true'] at h
    by_cases h0 : k0 = k
    · simp only [objInsert, if_pos h0, noDupKeys, Bool.and_eq_true, Bool.not_eq_true']
      exact h
    · simp only [objInsert, if_neg h0, noDupKeys, Bool.and_eq_true, Bool.not_eq_true']
      refine ⟨?_, ih h.2⟩
      rw [hasKey_objInsert_ne v (fun hh : k0 = k => h0 hh)]
      exact h.1

theorem wfF_objInsert {fs : List (String × JValue)} (k : String) (v : JValue)
    (hf : wfF fs = true) (hv : wfV v = true) : wfF (objInsert fs k v) = true := by
  induction fs with
  | nil => simp [objInsert, wfF, hv]
  | cons p fs ih =>
    obtain ⟨k0, v0⟩ := p
    simp only [wfF, Bool.and_eq_true] at hf
    by_cases h0 : k0 = k
    · simp [objInsert, if_pos h0, wfF, hv, hf.2]
    · simp [objInsert, if_neg h0, wfF, hf.1, ih hf.2]

theorem objFromPairs_wf_aux (ps : List (String × JValue)) :
    ∀ acc : List (String × JValue), noDupKeys acc = true → wfF acc = true →
      wfF ps = true →
      noDupKeys (ps.foldl (fun a p => objInsert a p.1 p.2) acc) = true ∧
      wfF (ps.foldl (fun a p => objInsert a p.1 p.2) acc) = true := by
  induction ps with
  | nil => intro acc h1 h2 _; exact ⟨h1, h2⟩
  | cons p ps ih =>
    intro acc h1 h2 h3
    obtain ⟨k, v⟩ := p
    simp only [wfF, Bool.and_eq_true] at h3
    exact ih (objInsert acc k v) (noDupKeys_objInsert k v h1)
      (wfF_objInsert k v h2 h3.1) h3.2

theorem objFromPairs_wf (ps : List (String × JValue)) (h : wfF ps = true) :
    noDupKeys (objFromPairs ps) = true ∧ wfF (objFromPairs ps) = true :=
  objFromPairs_wf_aux ps [] rfl rfl h

theorem objInsert_append {fs : List (String × JValue)} {k : String} (v : JValue)
    (h : hasKey fs k = false) : objInsert fs k v = fs ++ [(k, v)] := by
  induction fs with
  | nil => simp [objInsert]
  | cons p fs ih =>
    obtain ⟨k0, v0⟩ := p
    simp only [hasKey, jGet] at h
    by_cases h0 : k0 = k
    · rw [if_pos h0] at h
      simp at h
    · rw [if_neg h0] at h
      simp [objInsert, h0, ih h]

theorem noDupKeys_append_hasKey {k : String} {v : JValue} :
    ∀ l1 l2 : List (String × JValue), noDupKeys (l1 ++ (k, v) :: l2) = true →
      hasKey l1 k = false := by
  intro l1
  induction l1 with
  | nil => intro l2 _; rfl
  | cons p l1 ih =>
    intro l2 h
    obtain ⟨k0, v0⟩ := p
    simp only [List.cons_append, List.append_eq, noDupKeys, Bool.and_eq_true,
      Bool.not_eq_true'] at h
    have hk0 : k0 ≠ k := by
      intro hk
      subst hk
      rw [hasKey_append] at h
      have : hasKey ((k0, v) :: l2) k0 = true := by simp [hasKey, jGet]
      rw [this] at h
      simp at h
    simp only [hasKey, jGet, if_neg hk0]
    exact ih l2 h.2

theorem objFromPairs_self_aux :
    ∀ (fs acc : List (String × JValue)), noDupKeys (acc ++ fs) = true →
      fs.foldl (fun a p => objInsert a p.1 p.2) acc = acc ++ fs := by
  intro fs
  induction fs with
  | nil => intro acc _; simp
  | cons p fs ih =>
    intro acc h
    obtain ⟨k, v⟩ := p
    have hk : hasKey acc k = false := noDupKeys_append_hasKey acc fs h
    simp only [List.foldl_cons]
    rw [objInsert_append v hk]
    have h2 : noDupKeys ((acc ++ [(k, v)]) ++ fs) = true := by
      rw [List.append_assoc]
      simpa using h
    rw [ih (acc ++ [(k, v)]) h2]
    simp

/-- On duplicate-free pairs, the dict construction is the identity. -/
theorem objFromPairs_self {fs : List (String × JValue)} (h : noDupKeys fs = true) :
    objFromPairs fs = fs := by
  rw [objFromPairs, objFromPairs_self_aux fs [] (by simpa using h)]
  simp

/-! ## C7: integer literal inverses -/

theorem digitChar_props (k : Nat) (h : k < 10) :
    (Char.ofNat (48 + k)).toNat - 48 = k ∧ (Char.ofNat (48 + k)).isDigit = true
      ∧ (Char.ofNat (48 + k) = '0' ↔ k = 0) := by
  interval_cases k <;> exact ⟨by decide, by decide, by decide⟩

theorem natCharsF_acc (fuel : Nat) : ∀ (n : Nat) (acc : List Char),
    natCharsF fuel n acc = natCharsF fuel n [] ++ acc := by
  induction fuel with
  | zero => intro n acc; simp [natCharsF]
  | succ fuel ih =>
    intro n acc
    by_cases hn : n < 10
    · simp [natCharsF, hn]
    · rw [natCharsF, natCharsF, if_neg hn, if_neg hn, ih (n / 10), ih (n / 10) [_]]
      simp

theorem natCharsF_fuel (n : Nat) : ∀ f1 f2 : Nat, n < f1 → n < f2 →
    ∀ acc, natCharsF f1 n acc = natCharsF f2 n acc := by
  induction n using Nat.strong_induction_on with
  | _ n ih =>
    intro f1 f2 h1 h2 acc
    match f1, f2 with
    | 0, _ => exact absurd h1 (by omega)
    | _ + 1, 0 => exact absurd h2 (by omega)
    | g1 + 1, g2 + 1 =>
      by_cases hn : n < 10
      · simp [natCharsF, hn]
      · rw [natCharsF, natCharsF, if_neg hn, if_neg hn]
        exact ih (n / 10) (by omega) g1 g2 (by omega) (by omega) _

theorem natChars_lt (n : Nat) (h : n < 10) (acc : List Char) :
    natChars n acc = Char.ofNat (48 + n) :: acc := by
  rw [natChars, natCharsF, if_pos h]

theorem natChars_unfold_ge (n : Nat) (h : 10 ≤ n) (acc : List Char) :
    natChars n acc = natChars (n / 10) (Char.ofNat (48 + n % 10) :: acc) := by
  rw [natChars, natChars, natCharsF, if_neg (by omega)]
  exact natCharsF_fuel (n / 10) n (n / 10 + 1) (by omega) (by omega) _

theorem natChars_concat (n : Nat) (h : 10 ≤ n) :
    natChars n [] = natChars (n / 10) [] ++ [Char.ofNat (48 + n % 10)] := by
  rw [natChars_unfold_ge n h, natChars, natCharsF_acc, ← natChars]

theorem digitsToNat_concat (xs : List Char) (d : Char) :
    digitsToNat (xs ++ [d]) = digitsToNat xs * 10 + (d.toNat - 48) := by
  rw [digitsToNat, List.foldl_append]
  rfl

theorem natChars_value (n : Nat) : digitsToNat (natChars n []) = n := by
  induction n using Nat.strong_induction_on with
  | _ n ih =>
    by_cases hn : n < 10
    · rw [natChars_lt n hn, digitsToNat]
      simpa using (digitChar_props n hn).1
    · rw [natChars_concat n (by omega), digitsToNat_concat,
        ih (n / 10) (by omega), (digitChar_props (n % 10) (by omega)).1]
      omega

theorem natChars_digits (n : Nat) : ∀ c ∈ natChars n [], c.isDigit = true := by
  induction n using Nat.strong_induction_on with
  | _ n ih =>
    intro c hc
    by_cases hn : n < 10
    · rw [natChars_lt n hn] at hc
      rw [List.mem_singleton] at hc
      subst hc
      exact (digitChar_props n hn).2.1
    · rw [natChars_concat n (by omega)] at hc
      rcases List.mem_append.mp hc with hc | hc
      · exact ih (n / 10) (by omega) c hc
      · rw [List.mem_singleton] at hc
        subst hc
        exact (digitChar_props (n % 10) (by omega)).2.1

theorem natChars_ne_nil (n : Nat) : natChars n [] ≠ [] := by
  by_cases hn : n < 10
  · rw [natChars_lt n hn]; simp
  · rw [natChars_concat n (by omega)]; simp

theorem natChars_head_ne_zero (n : Nat) (h : n ≠ 0) :
    ∀ d t, natChars n [] = d :: t → d ≠ '0' := by
  induction n using Nat.strong_induction_on with
  | _ n ih =>
    intro d t hd
    by_cases hn : n < 10
    · rw [natChars_lt n hn] at hd
      injection hd with h1 h2
      rw [← h1]
      intro h0
      exact h (((digitChar_props n hn).2.2).mp h0)
    · obtain ⟨d', t', hshape⟩ :
          ∃ d' t', natChars (n / 10) [] = d' :: t' := by
        cases hcs : natChars (n / 10) [] with
        | nil => exact absurd hcs (natChars_ne_nil (n / 10))
        | cons a b => exact ⟨a, b, rfl⟩
      rw [natChars_concat n (by omega), hshape, List.cons_append] at hd
      injection hd with h1 h2
      rw [← h1]
      exact ih (n / 10) (by omega) (by omega) d' t' hshape

theorem natChars_no_leading_zero (n : Nat) :
    ∀ d ds, natChars n [] = d :: ds → d = '0' → ds = [] := by
  intro d ds hd h0
  by_cases hn : n < 10
  · rw [natChars_lt n hn] at hd
    injection hd with h1 h2
    exact h2.symm
  · exact absurd h0 (natChars_head_ne_zero n (by omega) d ds hd)

theorem takeWhile_digits_append {ds rest : List Char}
    (hds : ∀ c ∈ ds, c.isDigit = true) (hrest : notDigitStart rest) :
    (ds ++ rest).takeWhile Char.isDigit = ds ∧
      (ds ++ rest).dropWhile Char.isDigit = rest := by
  induction ds with
  | nil =>
    cases rest with
    | nil => simp
    | cons c t =>
      simp only [notDigitStart] at hrest
      simp [List.takeWhile_cons, List.dropWhile_cons, hrest]
  | cons d ds ih =>
    have hd : d.isDigit = true := hds d (List.mem_cons_self d ds)
    have := ih fun c hc => hds c (List.mem_cons_of_mem d hc)
    simp [List.takeWhile_cons, List.dropWhile_cons, hd, this.1, this.2]

theorem parseNatToken_natChars (n : Nat) (rest : List Char) (hrest : notDigitStart rest) :
    parseNatToken (natChars n [] ++ rest) = some (n, rest) := by
  obtain ⟨d, ds, hshape⟩ : ∃ d ds, natChars n [] = d :: ds := by
    cases hcs : natChars n [] with
    | nil => exact absurd hcs (natChars_ne_nil n)
    | cons a b => exact ⟨a, b, rfl⟩
  obtain ⟨htake, hdrop⟩ := takeWhile_digits_append (natChars_digits n) hrest
  have hnz : ¬(d = '0' ∧ ds ≠ []) := by
    rintro ⟨h0, hne⟩
    exact hne (natChars_no_leading_zero n d ds hshape h0)
  rw [hshape] at htake hdrop ⊢
  rw [parseNatToken.eq_def, htake, hdrop]
  simp only [if_neg hnz, Option.some.injEq]
  rw [← hshape, natChars_value]

theorem parseIntToken_intChars (i : Int) (rest : List Char) (hrest : notDigitStart rest) :
    parseIntToken (intChars i ++ rest) = some (i, rest) := by
  by_cases hi : i < 0
  · rw [intChars, if_pos hi]
    rw [List.cons_append, parseIntToken, parseNatToken_natChars _ _ hrest]
    simp only [Option.map_some', Option.some.injEq, Prod.mk.injEq]
    refine ⟨by omega, ?_⟩
    trivial
  · rw [intChars, if_neg hi]
    obtain ⟨d, ds, hshape⟩ : ∃ d ds, natChars i.natAbs [] = d :: ds := by
      cases hcs : natChars i.natAbs [] with
      | nil => exact absurd hcs (natChars_ne_nil i.natAbs)
      | cons a b => exact ⟨a, b, rfl⟩
    have hd : d.isDigit = true := natChars_digits i.natAbs d (hshape ▸ List.mem_cons_self d ds)
    rw [parseIntToken.eq_def]
    split
    · rename_i t heq
      rw [hshape, List.cons_append] at heq
      injection heq with h1 h2
      rw [h1] at hd
      exact absurd hd (by decide)
    · rw [parseNatToken_natChars _ _ hrest]
      simp only [Option.map_some', Option.some.injEq, Prod.mk.injEq]
      refine ⟨by omega, ?_⟩
      trivial

/-! ## C7: string escape inverses -/

theorem hexDigitVal_hexChar (d : Nat) (h : d < 16) : hexDigitVal (hexChar d) = some d := by
  interval_cases d <;> decide

theorem char_no_surrogate (c : Char) :
    c.toNat < 0xd800 ∨ (0xdfff < c.toNat ∧ c.toNat < 0x110000) := c.valid

theorem hexQuad_hex4 (n : Nat) (h : n < 0x10000) :
    hexQuad (hexChar (n / 4096 % 16)) (hexChar (n / 256 % 16)) (hexChar (n / 16 % 16))
      (hexChar (n % 16)) = some n := by
  rw [hexQuad, hexDigitVal_hexChar _ (by omega), hexDigitVal_hexChar _ (by omega),
    hexDigitVal_hexChar _ (by omega), hexDigitVal_hexChar _ (by omega)]
  dsimp only
  rw [Option.some.injEq]
  omega

/-- Parsing one escaped character undoes `escChar` and continues. -/
theorem parseStringBody_esc (c : Char) (rest : List Char) :
    parseStringBody (escChar c ++ rest)
      = (parseStringBody rest).map fun p => (c :: p.1, p.2) := by
  have hval := char_no_surrogate c
  rw [escChar]
  split_ifs with h1 h2 h3 h4 h5 h6 h7 h8 h9
  · subst h1; rfl
  · subst h2; rfl
  · subst h3; rfl
  · subst h4; rfl
  · subst h5; rfl
  · subst h6; rfl
  · subst h7; rfl
  · have hq : ¬(c = '"') := h1
    have hb : ¬(c = '\\') := h2
    have hlt : ¬(c.toNat < 0x20) := by omega
    simp only [List.singleton_append, parseStringBody, if_neg hq, if_neg hb, if_neg hlt]
    rfl
  · simp only [hex4, List.cons_append, List.nil_append]
    rw [parseStringBody]
    simp only [if_neg (by decide : ¬('\\' : Char) = '"'), if_pos rfl, if_true,
      eq_self_iff_true]
    rw [parseEscapeSeq]
    simp only [if_pos rfl, if_true, eq_self_iff_true]
    rw [parseUniEscape, hexQuad_hex4 c.toNat h9]
    have hcond : c.toNat < 0xd800 ∨ 0xdfff < c.toNat := by omega
    simp only [if_pos hcond, if_true, eq_self_iff_true, Char.ofNat_toNat]
  · have hm : c.toNat - 0x10000 < 0x100000 := by omega
    have hhi : 0xd800 + (c.toNat - 0x10000) / 0x400 < 0x10000 := by omega
    have hlo : 0xdc00 + (c.toNat - 0x10000) % 0x400 < 0x10000 := by omega
    simp only [hex4, List.cons_append, List.nil_append, List.append_assoc]
    rw [parseStringBody]
    simp only [if_neg (by decide : ¬('\\' : Char) = '"'), if_pos rfl, if_true,
      eq_self_iff_true]
    rw [parseEscapeSeq]
    simp only [if_pos rfl, if_true, eq_self_iff_true]
    rw [parseUniEscape, hexQuad_hex4 _ hhi]
    have hcond1 : ¬(0xd800 + (c.toNat - 0x10000) / 0x400 < 0xd800
        ∨ 0xdfff < 0xd800 + (c.toNat - 0x10000) / 0x400) := by omega
    have hcond2 : ¬(0xdc00 ≤ 0xd800 + (c.toNat - 0x10000) / 0x400) := by omega
    simp only [if_neg hcond1, if_neg hcond2]
    rw [parseLowSurrogate]
    simp only [if_pos (⟨rfl, rfl⟩ : ('\\' : Char) = '\\' ∧ ('u' : Char) = 'u'), if_true,
      eq_self_iff_true, and_self]
    rw [hexQuad_hex4 _ hlo]
    have hcond3 : 0xdc00 ≤ 0xdc00 + (c.toNat - 0x10000) % 0x400
        ∧ 0xdc00 + (c.toNat - 0x10000) % 0x400 ≤ 0xdfff := by omega
    simp only [if_pos hcond3, if_true, eq_self_iff_true]
    have harith : 0x10000 + (0xd800 + (c.toNat - 0x10000) / 0x400 - 0xd800) * 0x400
        + (0xdc00 + (c.toNat - 0x10000) % 0x400 - 0xdc00) = c.toNat := by omega
    rw [harith, Char.ofNat_toNat]

/-- Parsing an escaped character run stops at the closing quote. -/
theorem parseStringBody_escRun (cs : List Char) : ∀ rest : List Char,
    parseStringBody ((cs.map escChar).flatten ++ '"' :: rest) = some (cs, rest) := by
  induction cs with
  | nil => intro rest; rfl
  | cons c cs ih =>
    intro rest
    rw [List.map_cons, List.flatten_cons, List.append_assoc, parseStringBody_esc, ih rest]
    rfl

/-- The full string-literal inverse: `escString` then the remainder. -/
theorem parseStringBody_escString (s : String) (rest : List Char) :
    parseStringBody ((s.data.map escChar).flatten ++ '"' :: rest) = some (s.data, rest) :=
  parseStringBody_escRun s.data rest

/-! ## C7: decoded values are well-formed -/

theorem parser_wf (fuel : Nat) :
    (∀ cs v r, parseValue fuel cs = some (v, r) → wfV v = true) ∧
    (∀ cs v r, parseArrBody fuel cs = some (v, r) → wfV v = true) ∧
    (∀ cs vs r, parseElemsTail fuel cs = some (vs, r) → wfL vs = true) ∧
    (∀ cs v r, parseObjBody fuel cs = some (v, r) → wfV v = true) ∧
    (∀ cs ps r, parseFieldsTail fuel cs = some (ps, r) → wfF ps = true) := by
  induction fuel with
  | zero =>
    refine ⟨?_, ?_, ?_, ?_, ?_⟩ <;> intro cs a r h <;>
      simp [parseValue, parseArrBody, parseElemsTail, parseObjBody, parseFieldsTail] at h
  | succ f ih =>
    obtain ⟨ihV, ihA, ihE, ihO, ihF⟩ := ih
    refine ⟨?_, ?_, ?_, ?_, ?_⟩
    · intro cs v r h
      simp only [parseValue] at h
      cases hsk : skipJWs cs with
      | nil => rw [hsk] at h; simp at h
      | cons c t =>
        rw [hsk] at h
        dsimp only at h
        split_ifs at h
        all_goals try (exact ihO _ _ _ h)
        all_goals try (exact ihA _ _ _ h)
        · cases hp : parseStringBody t with
          | none => rw [hp] at h; simp at h
          | some p =>
            rw [hp] at h
            simp only [Option.map_some', Option.some.injEq] at h
            obtain ⟨hv, -⟩ := Prod.mk.inj h
            rw [← hv]
            rfl
        · simp only [Option.some.injEq] at h
          obtain ⟨hv, -⟩ := Prod.mk.inj h
          rw [← hv]
          rfl
        · simp only [Option.some.injEq] at h
          obtain ⟨hv, -⟩ := Prod.mk.inj h
          rw [← hv]
          rfl
        · simp only [Option.some.injEq] at h
          obtain ⟨hv, -⟩ := Prod.mk.inj h
          rw [← hv]
          rfl
        · cases hp : parseIntToken (c :: t) with
          | none => rw [hp] at h; simp at h
          | some p =>
            rw [hp] at h
            simp only [Option.map_some', Option.some.injEq] at h
            obtain ⟨hv, -⟩ := Prod.mk.inj h
            rw [← hv]
            rfl
    · intro cs v r h
      simp only [parseArrBody] at h
      cases hsk : skipJWs cs with
      | nil => rw [hsk] at h; simp at h
      | cons c t =>
        rw [hsk] at h
        dsimp only at h
        split_ifs at h
        · simp only [Option.some.injEq] at h
          obtain ⟨hv, -⟩ := Prod.mk.inj h
          rw [← hv]
          rfl
        · cases hv1 : parseValue f (c :: t) with
          | none => rw [hv1] at h; simp at h
          | some vp =>
            obtain ⟨v1, r1⟩ := vp
            rw [hv1] at h
            dsimp only at h
            cases het : parseElemsTail f r1 with
            | none => rw [het] at h; simp at h
            | some ep =>
              obtain ⟨vs, r2⟩ := ep
              rw [het] at h
              simp only [Option.some.injEq] at h
              obtain ⟨hv, -⟩ := Prod.mk.inj h
              rw [← hv]
              have h1 := ihV _ _ _ hv1
              have h2 := ihE _ _ _ het
              simp [wfV, wfL, h1, h2]
    · intro cs vs r h
      simp only [parseElemsTail] at h
      cases hsk : skipJWs cs with
      | nil => rw [hsk] at h; simp at h
      | cons c t =>
        rw [hsk] at h
        dsimp only at h
        split_ifs at h
        · simp only [Option.some.injEq] at h
          obtain ⟨hv, -⟩ := Prod.mk.inj h
          rw [← hv]
          rfl
        · cases hv1 : parseValue f t with
          | none => rw [hv1] at h; simp at h
          | some vp =>
            obtain ⟨v1, r1⟩ := vp
            rw [hv1] at h
            dsimp only at h
            cases het : parseElemsTail f r1 with
            | none => rw [het] at h; simp at h
            | some ep =>
              obtain ⟨vs1, r2⟩ := ep
              rw [het] at h
              simp only [Option.some.injEq] at h
              obtain ⟨hv, -⟩ := Prod.mk.inj h
              rw [← hv]
              have h1 := ihV _ _ _ hv1
              have h2 := ihE _ _ _ het
              simp [wfL, h1, h2]
    · intro cs v r h
      simp only [parseObjBody] at h
      cases hsk : skipJWs cs with
      | nil => rw [hsk] at h; simp at h
      | cons c t =>
        rw [hsk] at h
        dsimp only at h
        split_ifs at h
        · simp only [Option.some.injEq] at h
          obtain ⟨hv, -⟩ := Prod.mk.inj h
          rw [← hv]
          rfl
        · cases hp : parseStringBody t with
          | none => rw [hp] at h; simp at h
          | some kp =>
            obtain ⟨k, r1⟩ := kp
            rw [hp] at h
            dsimp only at h
            cases hsk2 : skipJWs r1 with
            | nil => rw [hsk2] at h; simp at h
            | cons c2 t2 =>
              rw [hsk2] at h
              dsimp only at h
              split_ifs at h
              · cases hv1 : parseValue f t2 with
                | none => rw [hv1] at h; simp at h
                | some vp =>
                  obtain ⟨v1, r2⟩ := vp
                  rw [hv1] at h
                  dsimp only at h
                  cases hft : parseFieldsTail f r2 with
                  | none => rw [hft] at h; simp at h
                  | some pp =>
                    obtain ⟨ps, r3⟩ := pp
                    rw [hft] at h
                    simp only [Option.some.injEq] at h
                    obtain ⟨hv, -⟩ := Prod.mk.inj h
                    rw [← hv]
                    have h1 := ihV _ _ _ hv1
                    have h2 := ihF _ _ _ hft
                    have h3 : wfF ((String.mk k, v1) :: ps) = true := by
                      simp [wfF, h1, h2]
                    obtain ⟨hnd, hwf⟩ := objFromPairs_wf _ h3
                    simp [wfV, hnd, hwf]
    · intro cs ps r h
      simp only [parseFieldsTail] at h
      cases hsk : skipJWs cs with
      | nil => rw [hsk] at h; simp at h
      | cons c t =>
        rw [hsk] at h
        dsimp only at h
        split_ifs at h
        · simp only [Option.some.injEq] at h
          obtain ⟨hv, -⟩ := Prod.mk.inj h
          rw [← hv]
          rfl
        · cases hsk2 : skipJWs t with
          | nil => rw [hsk2] at h; simp at h
          | cons c2 t2 =>
            rw [hsk2] at h
            dsimp only at h
            split_ifs at h
            · cases hp : parseStringBody t2 with
              | none => rw [hp] at h; simp at h
              | some kp =>
                obtain ⟨k, r1⟩ := kp
                rw [hp] at h
                dsimp only at h
                cases hsk3 : skipJWs r1 with
                | nil => rw [hsk3] at h; simp at h
                | cons c3 t3 =>
                  rw [hsk3] at h
                  dsimp only at h
                  split_ifs at h
                  · cases hv1 : parseValue f t3 with
                    | none => rw [hv1] at h; simp at h
                    | some vp =>
                      obtain ⟨v1, r2⟩ := vp
                      rw [hv1] at h
                      dsimp only at h
                      cases hft : parseFieldsTail f r2 with
                      | none => rw [hft] at h; simp at h
                      | some pp =>
                        obtain ⟨ps1, r3⟩ := pp
                        rw [hft] at h
                        simp only [Option.some.injEq] at h
                        obtain ⟨hv, -⟩ := Prod.mk.inj h
                        rw [← hv]
                        have h1 := ihV _ _ _ hv1
                        have h2 := ihF _ _ _ hft
                        simp [wfF, h1, h2]

/-- `json.loads` only produces well-formed values. -/
theorem loads_wf {cs : List Char} {v : JValue} (h : loads cs = some v) : wfV v = true := by
  rw [loads] at h
  cases hp : parseValue (cs.length + 1) cs with
  | none => rw [hp] at h; simp at h
  | some p =>
    rw [hp] at h
    dsimp only at h
    split_ifs at h
    simp only [Option.some.injEq] at h
    subst h
    exact (parser_wf (cs.length + 1)).1 cs p.1 p.2 (by rw [hp])

/-! ## C7: the reparse round trip -/

theorem skipJWs_cons (c : Char) (t : List Char) (h : isJWs c = true) :
    skipJWs (c :: t) = skipJWs t := by
  rw [skipJWs]
  simp [h]

theorem skipJWs_noskip (c : Char) (t : List Char) (h : isJWs c = false) :
    skipJWs (c :: t) = c :: t := by
  rw [skipJWs]
  simp [h]

/-- `parseValue` skips a leading whitespace character. -/
theorem parseValue_cons_ws (f : Nat) (c : Char) (x : List Char) (h : isJWs c = true) :
    parseValue f (c :: x) = parseValue f x := by
  cases f with
  | zero => rfl
  | succ f =>
    simp only [parseValue]
    rw [skipJWs_cons c x h]

/-- A digit character is none of the parser's structural dispatch characters. -/
theorem digit_not_special (d : Char) (h : d.isDigit = true) :
    isJWs d = false ∧ d ≠ '"' ∧ d ≠ lbrace ∧ d ≠ '[' ∧ d ≠ 'n' ∧ d ≠ 't' ∧ d ≠ 'f'
      ∧ d ≠ ']' ∧ d ≠ rbrace ∧ d ≠ ',' := by
  refine ⟨?_, ?_, ?_, ?_, ?_, ?_, ?_, ?_, ?_, ?_⟩
  · cases hjw : isJWs d with
    | false => rfl
    | true =>
      exfalso
      simp only [isJWs, Bool.or_eq_true, decide_eq_true_eq] at hjw
      rcases hjw with ((h1 | h1) | h1) | h1 <;> (subst h1; exact absurd h (by decide))
  all_goals (rintro rfl; exact absurd h (by decide))

theorem dumpV_ne_nil (v : JValue) : dumpV v ≠ [] := by
  cases v with
  | null => simp [dumpV]
  | bool b => cases b <;> simp [dumpV]
  | int n =>
    by_cases hneg : n < 0
    · simp [dumpV, intChars, hneg]
    · simp only [dumpV, intChars, if_neg hneg]
      exact natChars_ne_nil n.natAbs
  | str s => simp [dumpV, escString]
  | arr es => simp [dumpV]
  | obj fs => simp [dumpV]

/-- The first rendered character of a value: never whitespace, never `]`. -/
theorem dumpV_head (v : JValue) :
    ∃ c t, dumpV v = c :: t ∧ isJWs c = false ∧ c ≠ ']' := by
  cases v with
  | null => exact ⟨'n', ['u', 'l', 'l'], by simp [dumpV], by decide, by decide⟩
  | bool b =>
    cases b with
    | false => exact ⟨'f', ['a', 'l', 's', 'e'], by simp [dumpV], by decide, by decide⟩
    | true => exact ⟨'t', ['r', 'u', 'e'], by simp [dumpV], by decide, by decide⟩
  | int n =>
    by_cases hneg : n < 0
    · exact ⟨'-', natChars n.natAbs [], by simp [dumpV, intChars, hneg], by decide, by decide⟩
    · obtain ⟨d, ds, hshape⟩ : ∃ d ds, natChars n.natAbs [] = d :: ds := by
        cases hcs : natChars n.natAbs [] with
        | nil => exact absurd hcs (natChars_ne_nil _)
        | cons a b => exact ⟨a, b, rfl⟩
      have hd : d.isDigit = true :=
        natChars_digits n.natAbs d (hshape ▸ List.mem_cons_self d ds)
      obtain ⟨hws, -, -, -, -, -, -, hbr, -, -⟩ := digit_not_special d hd
      exact ⟨d, ds, by simp [dumpV, intChars, hneg, hshape], hws, hbr⟩
  | str s =>
    exact ⟨'"', (s.data.map escChar).flatten ++ ['"'], by simp [dumpV, escString], by decide,
      by decide⟩
  | arr es => exact ⟨'[', dumpL es ++ [']'], by simp [dumpV], by decide, by decide⟩
  | obj fs => exact ⟨lbrace, dumpF fs ++ [rbrace], by simp [dumpV], by decide, by decide⟩

/-- Inside an array rendering, what follows an element starts with `,` or `]`. -/
theorem notDigitStart_dumpLTail (vs : List JValue) (rest : List Char) :
    notDigitStart (dumpLTail vs ++ ']' :: rest) := by
  cases vs with
  | nil =>
    simp only [dumpLTail, List.nil_append]
    show (']' : Char).isDigit = false
    decide
  | cons v vs =>
    simp only [dumpLTail, List.cons_append]
    show (',' : Char).isDigit = false
    decide

/-- Inside an object rendering, what follows a value starts with `,` or the
closing brace. -/
theorem notDigitStart_dumpFTail (fs : List (String × JValue)) (rest : List Char) :
    notDigitStart (dumpFTail fs ++ rbrace :: rest) := by
  cases fs with
  | nil =>
    simp only [dumpFTail, List.nil_append]
    show rbrace.isDigit = false
    decide
  | cons kv fs =>
    obtain ⟨k, v⟩ := kv
    simp only [dumpFTail, List.cons_append]
    show (',' : Char).isDigit = false
    decide

/-- The reparse round trip: parsing the rendering of a well-formed value at
sufficient fuel recovers the value exactly, for each of the five mutual
readers. -/
theorem rt_all (fuel : Nat) :
    (∀ v rest, wfV v = true → notDigitStart rest → (dumpV v).length < fuel →
      parseValue fuel (dumpV v ++ rest) = some (v, rest)) ∧
    (∀ es rest, wfL es = true → (dumpL es).length + 1 < fuel →
      parseArrBody fuel (dumpL es ++ ']' :: rest) = some (.arr es, rest)) ∧
    (∀ es rest, wfL es = true → (dumpLTail es).length + 1 < fuel →
      parseElemsTail fuel (dumpLTail es ++ ']' :: rest) = some (es, rest)) ∧
    (∀ fs rest, noDupKeys fs = true → wfF fs = true → (dumpF fs).length + 1 < fuel →
      parseObjBody fuel (dumpF fs ++ rbrace :: rest) = some (.obj fs, rest)) ∧
    (∀ fs rest, wfF fs = true → (dumpFTail fs).length + 1 < fuel →
      parseFieldsTail fuel (dumpFTail fs ++ rbrace :: rest) = some (fs, rest)) := by
  induction fuel with
  | zero =>
    refine ⟨?_, ?_, ?_, ?_, ?_⟩
    · intro v rest _ _ hlen; omega
    · intro es rest _ hlen; omega
    · intro es rest _ hlen; omega
    · intro fs rest _ _ hlen; omega
    · intro fs rest _ hlen; omega
  | succ f ih =>
    obtain ⟨ihA, ihB, ihC, ihD, ihE⟩ := ih
    refine ⟨?_, ?_, ?_, ?_, ?_⟩
    · intro v rest hwf hnd hlen
      cases v with
      | null =>
        have hdv : dumpV JValue.null ++ rest = 'n' :: 'u' :: 'l' :: 'l' :: rest := by
          simp [dumpV]
        rw [hdv]
        simp only [parseValue]
        rw [skipJWs_noskip _ _ (by decide)]
        dsimp only
        rw [if_neg (by decide : ¬('n' : Char) = '"'), if_neg (by decide : ¬('n' : Char) = lbrace),
          if_neg (by decide : ¬('n' : Char) = '['), if_pos (rfl : ('n' : Char) = 'n')]
        rw [if_pos (show (['u', 'l', 'l'].isPrefixOf ('u' :: 'l' :: 'l' :: rest)) = true by
          simp [List.isPrefixOf])]
        rfl
      | bool b =>
        cases b with
        | true =>
          have hdv : dumpV (JValue.bool true) ++ rest = 't' :: 'r' :: 'u' :: 'e' :: rest := by
            simp [dumpV]
          rw [hdv]
          simp only [parseValue]
          rw [skipJWs_noskip _ _ (by decide)]
          dsimp only
          rw [if_neg (by decide : ¬('t' : Char) = '"'),
            if_neg (by decide : ¬('t' : Char) = lbrace),
            if_neg (by decide : ¬('t' : Char) = '['), if_neg (by decide : ¬('t' : Char) = 'n'),
            if_pos (rfl : ('t' : Char) = 't')]
          rw [if_pos (show (['r', 'u', 'e'].isPrefixOf ('r' :: 'u' :: 'e' :: rest)) = true by
            simp [List.isPrefixOf])]
          rfl
        | false =>
          have hdv : dumpV (JValue.bool false) ++ rest
              = 'f' :: 'a' :: 'l' :: 's' :: 'e' :: rest := by
            simp [dumpV]
          rw [hdv]
          simp only [parseValue]
          rw [skipJWs_noskip _ _ (by decide)]
          dsimp only
          rw [if_neg (by decide : ¬('f' : Char) = '"'),
            if_neg (by decide : ¬('f' : Char) = lbrace),
            if_neg (by decide : ¬('f' : Char) = '['), if_neg (by decide : ¬('f' : Char) = 'n'),
            if_neg (by decide : ¬('f' : Char) = 't'), if_pos (rfl : ('f' : Char) = 'f')]
          rw [if_pos (show (['a', 'l', 's', 'e'].isPrefixOf ('a' :: 'l' :: 's' :: 'e' :: rest))
              = true by simp [List.isPrefixOf])]
          rfl
      | int n =>
        by_cases hneg : n < 0
        · simp only [dumpV, intChars, if_pos hneg, List.cons_append]
          simp only [parseValue]
          rw [skipJWs_noskip _ _ (by decide)]
          dsimp only
          rw [if_neg (by decide : ¬('-' : Char) = '"'),
            if_neg (by decide : ¬('-' : Char) = lbrace),
            if_neg (by decide : ¬('-' : Char) = '['), if_neg (by decide : ¬('-' : Char) = 'n'),
            if_neg (by decide : ¬('-' : Char) = 't'), if_neg (by decide : ¬('-' : Char) = 'f'),
            if_pos (by decide : (decide (('-' : Char) = '-') || ('-' : Char).isDigit) = true)]
          have hint := parseIntToken_intChars n rest hnd
          rw [intChars, if_pos hneg, List.cons_append] at hint
          rw [hint]
          rfl
        · obtain ⟨d, ds, hshape⟩ : ∃ d ds, natChars n.natAbs [] = d :: ds := by
            cases hcs : natChars n.natAbs [] with
            | nil => exact absurd hcs (natChars_ne_nil _)
            | cons a b => exact ⟨a, b, rfl⟩
          have hd : d.isDigit = true :=
            natChars_digits n.natAbs d (hshape ▸ List.mem_cons_self d ds)
          obtain ⟨hws, hq, hlb, hob, hn, ht, hf2, -, -, -⟩ := digit_not_special d hd
          simp only [dumpV, intChars, if_neg hneg, hshape, List.cons_append]
          simp only [parseValue]
          rw [skipJWs_noskip _ _ hws]
          dsimp only
          rw [if_neg hq, if_neg hlb, if_neg hob, if_neg hn, if_neg ht, if_neg hf2,
            if_pos (show (decide (d = '-') || d.isDigit) = true by simp [hd])]
          have hint := parseIntToken_intChars n rest hnd
          rw [intChars, if_neg hneg, hshape, List.cons_append] at hint
          rw [hint]
          rfl
      | str s =>
        obtain ⟨sd⟩ := s
        simp only [dumpV, escString, List.cons_append, List.append_assoc,
          List.singleton_append, List.nil_append]
        simp only [parseValue]
        rw [skipJWs_noskip _ _ (by decide)]
        dsimp only
        rw [if_pos (rfl : ('"' : Char) = '"')]
        rw [parseStringBody_escRun sd rest]
        rfl
      | arr es =>
        simp only [wfV] at hwf
        simp only [dumpV, List.length_cons, List.length_append, List.length_singleton] at hlen
        simp only [dumpV, List.cons_append, List.append_assoc, List.singleton_append,
          List.nil_append]
        simp only [parseValue]
        rw [skipJWs_noskip _ _ (by decide)]
        dsimp only
        rw [if_neg (by decide : ¬('[' : Char) = '"'), if_neg (by decide : ¬('[' : Char) = lbrace),
          if_pos (rfl : ('[' : Char) = '[')]
        exact ihB es rest hwf (by omega)
      | obj fs =>
        simp only [wfV, Bool.and_eq_true] at hwf
        obtain ⟨hnd2, hwff⟩ := hwf
        simp only [dumpV, List.length_cons, List.length_append, List.length_singleton] at hlen
        simp only [dumpV, List.cons_append, List.append_assoc, List.singleton_append,
          List.nil_append]
        simp only [parseValue]
        rw [skipJWs_noskip _ _ (by decide)]
        dsimp only
        rw [if_neg (by decide : ¬lbrace = '"'), if_pos (rfl : lbrace = lbrace)]
        exact ihD fs rest hnd2 hwff (by omega)
    · intro es rest hwf hlen
      cases es with
      | nil =>
        simp only [dumpL, List.nil_append]
        simp only [parseArrBody]
        rw [skipJWs_noskip _ _ (by decide)]
        dsimp only
        rw [if_pos (rfl : (']' : Char) = ']')]
      | cons v vs =>
        obtain ⟨c, t, hshape, hcws, hcbr⟩ := dumpV_head v
        simp only [wfL, Bool.and_eq_true] at hwf
        obtain ⟨hwv, hwvs⟩ := hwf
        have hvpos : 0 < (dumpV v).length := List.length_pos.mpr (dumpV_ne_nil v)
        simp only [dumpL, List.length_append] at hlen
        simp only [dumpL, List.append_assoc]
        have hpv : parseValue f (dumpV v ++ (dumpLTail vs ++ ']' :: rest))
            = some (v, dumpLTail vs ++ ']' :: rest) :=
          ihA v _ hwv (notDigitStart_dumpLTail vs rest) (by omega)
        have het : parseElemsTail f (dumpLTail vs ++ ']' :: rest) = some (vs, rest) :=
          ihC vs rest hwvs (by omega)
        rw [hshape, List.cons_append]
        simp only [parseArrBody]
        rw [skipJWs_noskip _ _ hcws]
        dsimp only
        rw [if_neg hcbr]
        rw [hshape, List.cons_append] at hpv
        rw [hpv]
        dsimp only
        rw [het]
    · intro es rest hwf hlen
      cases es with
      | nil =>
        simp only [dumpLTail, List.nil_append]
        simp only [parseElemsTail]
        rw [skipJWs_noskip _ _ (by decide)]
        dsimp only
        rw [if_pos (rfl : (']' : Char) = ']')]
      | cons v vs =>
        simp only [wfL, Bool.and_eq_true] at hwf
        obtain ⟨hwv, hwvs⟩ := hwf
        have hvpos : 0 < (dumpV v).length := List.length_pos.mpr (dumpV_ne_nil v)
        simp only [dumpLTail, List.length_cons, List.length_append] at hlen
        simp only [dumpLTail, List.cons_append, List.append_assoc]
        simp only [parseElemsTail]
        rw [skipJWs_noskip _ _ (by decide)]
        dsimp only
        rw [if_neg (by decide : ¬(',' : Char) = ']'), if_pos (rfl : (',' : Char) = ',')]
        rw [parseValue_cons_ws f ' ' _ (by decide)]
        rw [ihA v (dumpLTail vs ++ ']' :: rest) hwv (notDigitStart_dumpLTail vs rest) (by omega)]
        dsimp only
        rw [ihC vs rest hwvs (by omega)]
    · intro fs rest hnd hwf hlen
      cases fs with
      | nil =>
        simp only [dumpF, List.nil_append]
        simp only [parseObjBody]
        rw [skipJWs_noskip _ _ (by decide)]
        dsimp only
        rw [if_pos (rfl : rbrace = rbrace)]
      | cons kv fs =>
        obtain ⟨k, v⟩ := kv
        obtain ⟨kd⟩ := k
        simp only [wfF, Bool.and_eq_true] at hwf
        obtain ⟨hwv, hwfs⟩ := hwf
        have hvpos : 0 < (dumpV v).length := List.length_pos.mpr (dumpV_ne_nil v)
        simp only [dumpF, escString, List.length_cons, List.length_append,
          List.length_singleton] at hlen
        simp only [dumpF, escString, List.cons_append, List.append_assoc,
          List.singleton_append, List.nil_append]
        simp only [parseObjBody]
        rw [skipJWs_noskip _ _ (by decide)]
        dsimp only
        rw [if_neg (by decide : ¬('"' : Char) = rbrace), if_pos (rfl : ('"' : Char) = '"')]
        rw [parseStringBody_escRun kd (':' :: ' ' :: (dumpV v ++ (dumpFTail fs ++
          rbrace :: rest)))]
        dsimp only
        rw [skipJWs_noskip _ _ (by decide : isJWs ':' = false)]
        dsimp only
        rw [if_pos (rfl : (':' : Char) = ':')]
        rw [parseValue_cons_ws f ' ' _ (by decide)]
        rw [ihA v (dumpFTail fs ++ rbrace :: rest) hwv (notDigitStart_dumpFTail fs rest)
          (by omega)]
        dsimp only
        rw [ihE fs rest hwfs (by omega)]
        dsimp only
        rw [objFromPairs_self hnd]
    · intro fs rest hwf hlen
      cases fs with
      | nil =>
        simp only [dumpFTail, List.nil_append]
        simp only [parseFieldsTail]
        rw [skipJWs_noskip _ _ (by decide)]
        dsimp only
        rw [if_pos (rfl : rbrace = rbrace)]
      | cons kv fs =>
        obtain ⟨k, v⟩ := kv
        obtain ⟨kd⟩ := k
        simp only [wfF, Bool.and_eq_true] at hwf
        obtain ⟨hwv, hwfs⟩ := hwf
        have hvpos : 0 < (dumpV v).length := List.length_pos.mpr (dumpV_ne_nil v)
        simp only [dumpFTail, escString, List.length_cons, List.length_append,
          List.length_singleton] at hlen
        simp only [dumpFTail, escString, List.cons_append, List.append_assoc,
          List.singleton_append, List.nil_append]
        simp only [parseFieldsTail]
        rw [skipJWs_noskip _ _ (by decide)]
        dsimp only
        rw [if_neg (by decide : ¬(',' : Char) = rbrace), if_pos (rfl : (',' : Char) = ',')]
        rw [skipJWs_cons _ _ (by decide : isJWs ' ' = true),
          skipJWs_noskip _ _ (by decide : isJWs '"' = false)]
        dsimp only
        rw [if_pos (rfl : ('"' : Char) = '"')]
        rw [parseStringBody_escRun kd (':' :: ' ' :: (dumpV v ++ (dumpFTail fs ++
          rbrace :: rest)))]
        dsimp only
        rw [skipJWs_noskip _ _ (by decide : isJWs ':' = false)]
        dsimp only
        rw [if_pos (rfl : (':' : Char) = ':')]
        rw [parseValue_cons_ws f ' ' _ (by decide)]
        rw [ihA v (dumpFTail fs ++ rbrace :: rest) hwv (notDigitStart_dumpFTail fs rest)
          (by omega)]
        dsimp only
        rw [ihE fs rest hwfs (by omega)]

/-- `json.loads` inverts `json.dumps` on well-formed values. -/
theorem loads_dumpV (v : JValue) (h : wfV v = true) : loads (dumpV v) = some v := by
  have hA := (rt_all ((dumpV v).length + 1)).1 v [] h trivial (by omega)
  rw [List.append_nil] at hA
  simp only [loads, hA]
  rfl

/-- Containment of a concatenated needle gives containment of its first part
(`"x in s"` monotonicity used for the two code-fence markers). -/
theorem containsSub_mono (n1 n2 : List Char) : ∀ cs : List Char,
    containsSub cs (n1 ++ n2) = true → containsSub cs n1 = true := by
  intro cs
  induction cs with
  | nil =>
    intro h
    simp only [containsSub, List.isEmpty_iff] at h ⊢
    exact (List.append_eq_nil.mp h).1
  | cons c t ih =>
    intro h
    simp only [containsSub, Bool.or_eq_true] at h ⊢
    rcases h with h | h
    · left
      rw [List.isPrefixOf_iff_prefix] at h ⊢
      exact (List.prefix_append n1 n2).trans h
    · right
      exact ih h

/-- On fence-free `dumps` output of an object, the substring selection is the
identity: the text starts with the opening brace and ends with the closing
brace. -/
theorem selectJsonText_dumpObj (fs : List (String × JValue))
    (hf : containsSub (dumpV (.obj fs)) ("```".data) = false) :
    selectJsonText (dumpV (.obj fs)) = .ok (dumpV (.obj fs)) := by
  have hj : containsSub (dumpV (.obj fs)) ("```json".data) = false := by
    cases hc : containsSub (dumpV (.obj fs)) ("```json".data) with
    | false => rfl
    | true =>
      have hm := containsSub_mono ("```".data) ("json".data) (dumpV (.obj fs))
        (by rw [show ("```".data ++ "json".data) = "```json".data from by decide]; exact hc)
      rw [hm] at hf
      exact absurd hf (by decide)
  have hdv : dumpV (JValue.obj fs) = lbrace :: (dumpF fs ++ [rbrace]) := by simp [dumpV]
  have hfind : pyFind lbrace (dumpV (.obj fs)) = 0 := by
    rw [hdv, pyFind, if_pos rfl]
  have hrev : (dumpV (JValue.obj fs)).reverse = rbrace :: ((dumpF fs).reverse ++ [lbrace]) := by
    rw [hdv]
    simp
  have hrfind : pyRfind rbrace (dumpV (.obj fs)) = ((dumpV (.obj fs)).length : Int) - 1 := by
    rw [pyRfind, hrev, pyFind, if_pos rfl]
    simp
  have hpos : 0 < (dumpV (.obj fs)).length := List.length_pos.mpr (dumpV_ne_nil _)
  rw [selectJsonText]
  rw [if_neg (by simp [hj]), if_neg (by simp [hf])]
  simp only [hfind, hrfind]
  rw [if_pos ⟨by decide, by omega⟩]
  have htn : ((dumpV (JValue.obj fs)).length : Int) - 1 + 1 = ((dumpV (.obj fs)).length : Int) := by
    omega
  rw [htn]
  rw [pySlice]
  simp

/-- `normalizeResult` always yields a well-formed mapping that binds
`listings`. -/
theorem normalizeResult_shape (result : JValue) (hw : wfV result = true) :
    ∃ fs, normalizeResult result = .obj fs ∧ wfV (.obj fs) = true
      ∧ jGet fs "listings" ≠ none := by
  cases result with
  | null => exact ⟨[("listings", .arr [])], rfl, by decide, by decide⟩
  | bool b => exact ⟨[("listings", .arr [])], rfl, by decide, by decide⟩
  | int n => exact ⟨[("listings", .arr [])], rfl, by decide, by decide⟩
  | str s => exact ⟨[("listings", .arr [])], rfl, by decide, by decide⟩
  | arr es => exact ⟨[("listings", .arr [])], rfl, by decide, by decide⟩
  | obj gs =>
    by_cases hl : jGet gs "listings" = none
    · refine ⟨[("listings", .arr [.obj gs])], by simp [normalizeResult, hl], ?_, by simp [jGet]⟩
      have hw' : (noDupKeys gs && wfF gs) = true := by simpa [wfV] using hw
      simp only [wfV, wfF, wfL, noDupKeys, hasKey, jGet, Bool.and_eq_true] at hw' ⊢
      simp [hw'.1, hw'.2]
    · exact ⟨gs, by simp [normalizeResult, hl], hw, hl⟩

/-- Every successful `parse_api_response` result is a well-formed mapping
binding `listings`. -/
theorem parse_api_response_ok_shape {x : String} {r : JValue}
    (h : parse_api_response x = .ok r) :
    ∃ fs, r = .obj fs ∧ wfV (.obj fs) = true ∧ jGet fs "listings" ≠ none := by
  rw [parse_api_response] at h
  cases hs : selectJsonText x.data with
  | error e =>
    rw [hs] at h
    exact Except.noConfusion h
  | ok jt =>
    rw [hs] at h
    dsimp only at h
    cases hl : loads jt with
    | none =>
      rw [hl] at h
      dsimp only at h
      injection h with h1
      exact ⟨[("listings", .arr [])], h1.symm, by decide, by decide⟩
    | some result =>
      rw [hl] at h
      dsimp only at h
      injection h with h1
      obtain ⟨fs, he, hwf2, hkey⟩ := normalizeResult_shape result (loads_wf hl)
      exact ⟨fs, by rw [← h1, he], hwf2, hkey⟩

/-- Reparsing fence-free `dumps` output of a listings mapping returns the
mapping itself. -/
theorem parse_api_response_dumps {fs : List (String × JValue)}
    (hw : wfV (.obj fs) = true) (hkey : jGet fs "listings" ≠ none)
    (hfence : containsSub (dumps (.obj fs)).data ("```".data) = false) :
    parse_api_response (dumps (.obj fs)) = .ok (.obj fs) := by
  have hdata : (dumps (JValue.obj fs)).data = dumpV (.obj fs) := rfl
  rw [parse_api_response, hdata, selectJsonText_dumpObj fs (by rw [← hdata]; exact hfence)]
  dsimp only
  rw [loads_dumpV _ hw]
  dsimp only
  simp only [normalizeResult]
  rw [if_neg hkey]

/-- C7 (corrected): the spec claims `parse(json_dump(parse(x))) == parse(x)`
for arbitrary raw output `x`.  That fails when the serialized result itself
contains a backtick code fence (see the counterexample); under the amended
hypothesis that the serialization of the parse result contains no `"```"`,
reparsing the serialization returns exactly the parse result, so
`parse(json_dump(parse(x))) == parse(x)`.  In particular parse is idempotent
on already-normalized fence-free input. -/
theorem c7_reparse_roundtrip_no_fence (x : String) (r : JValue)
    (hok : parse_api_response x = .ok r)
    (hfence : containsSub (dumps r).data ("```".data) = false) :
    parse_api_response (dumps r) = .ok r := by
  obtain ⟨fs, hr, hw, hkey⟩ := parse_api_response_ok_shape hok
  subst hr
  exact parse_api_response_dumps hw hkey hfence

set_option maxRecDepth 4000 in
/-- Witness: on the already-normalized input `{"listings": []}` the parse
result is the empty envelope, its serialization is fence-free, and reparsing
the serialization returns it unchanged. -/
theorem c7_reparse_roundtrip_no_fence_witness :
    parse_api_response (dumps emptyListings) = .ok emptyListings :=
  c7_reparse_roundtrip_no_fence "\x7b\"listings\": []\x7d" emptyListings (by decide)
    (by decide)

set_option maxRecDepth 4000 in
/-- C7 counterexample: the model output `{"listings": ["\u0060\u0060\u0060"]}`
parses to a listings mapping holding the string `"```"`; its `json.dumps`
serialization then contains a bare code fence, so reparsing it takes the
fence branch and collapses to the empty envelope — `parse(json_dump(parse(x)))`
differs from `parse(x)`. -/
theorem c7_counterexample_backtick_listing :
    parse_api_response "\x7b\"listings\": [\"\\u0060\\u0060\\u0060\"]\x7d"
        = .ok (.obj [("listings", .arr [.str "```"])])
      ∧ parse_api_response (dumps (.obj [("listings", .arr [.str "```"])]))
        = .ok emptyListings
      ∧ JValue.obj [("listings", .arr [.str "```"])] ≠ emptyListings :=
  ⟨by decide, by decide, by decide⟩

end SM
